import Mathlib

/-!
Verification development for the CookieCutter UI styling engine
(`common/ui_styling.py`): a CSS-like stylesheet engine with a recursive
selector matcher, a trie-based selector index, shorthand declaration
expansion, and several cache layers.

Selector strings are modelled as `List Char` (written `Str` below); chains of
simple selectors are `List Str` in root-first order, exactly as in the source.
-/

set_option synthInstance.maxHeartbeats 400000

namespace UIStyle

abbrev Str := List Char

/-- Turn a Lean string literal into the character-list representation. -/
def cstr (s : String) : Str := s.toList

/-! ## Selector decomposition (`UI_Style_RuleSet._split_selector`)

The source splits a simple-selector string with the regex

  `(?:(?P<type>[.#:[]+)?(?P<name>[^\n .#:\[=\]]+)(?:="(?P<val>[^"]+)")?\]?)`

iterated over the string (`finditer`).  We implement that scanner directly:
`tryTriple` is one attempted match at the current position, `scanTriples`
is the `finditer` loop (advancing one character when no match starts here). -/

def isTypeChar (c : Char) : Bool :=
  c = '.' || c = '#' || c = ':' || c = '['

def isNameChar (c : Char) : Bool :=
  !(c = '\n' || c = ' ' || c = '.' || c = '#' || c = ':' || c = '[' || c = '=' || c = ']')

/-- Longest run of characters satisfying `p`, plus the rest. -/
def takeRun (p : Char → Bool) : Str → Str × Str
  | [] => ([], [])
  | c :: cs =>
    if p c then
      let r := takeRun p cs
      (c :: r.1, r.2)
    else ([], c :: cs)

/-- One (type?, name, val?) group of the selector-splitting regex. -/
abbrev Triple := Option Str × Str × Option Str

/-- The optional trailing `]` of the selector-splitting regex. -/
def dropBracket : Str → Str
  | ']' :: cs => cs
  | cs => cs

/-- Attempt a single regex match at the start of `s`: an optional run of
type characters, a non-empty run of name characters, an optional `="val"`,
an optional `]`.  Returns the captured triple and the remaining input, or
`none` when no match starts at this position. -/
def tryTriple (s : Str) : Option (Triple × Str) :=
  let t := takeRun isTypeChar s
  let n := takeRun isNameChar t.2
  if n.1 = [] then none
  else
    let ty : Option Str := if t.1 = [] then none else some t.1
    match n.2 with
    | '=' :: '"' :: r3 =>
      let v := takeRun (fun c => !(c = '"')) r3
      match v.1, v.2 with
      | _ :: _, '"' :: r5 => some ((ty, n.1, some v.1), dropBracket r5)
      | _, _ => some ((ty, n.1, none), dropBracket n.2)
    | _ => some ((ty, n.1, none), dropBracket n.2)

/-- `finditer` over the selector-splitting regex (fuelled; the wrapper
`scanTriples` supplies enough fuel that the bound is never hit). -/
def scanTriplesF : Nat → Str → List Triple
  | 0, _ => []
  | _ + 1, [] => []
  | fuel + 1, c :: cs =>
    match tryTriple (c :: cs) with
    | none => scanTriplesF fuel cs
    | some (tr, rest) => tr :: scanTriplesF fuel rest

def scanTriples (s : Str) : List Triple :=
  scanTriplesF s.length s

/-- A decomposed simple selector (the dict built by `_split_selector`).
Python `set`s are modelled as duplicate-free lists in insertion order. -/
structure Part where
  type : Str
  classes : List Str
  id : Str
  pseudoelements : List Str
  pseudoclasses : List Str
  attribs : List Str
  attribvals : List (Str × Str)
deriving DecidableEq, Repr

def Part.empty : Part := ⟨[], [], [], [], [], [], []⟩

/-- `set.add`: append if not already present. -/
def addIfNew (x : Str) (xs : List Str) : List Str :=
  if x ∈ xs then xs else xs ++ [x]

/-- dict assignment `d[k] = v`: overwrite in place, else append. -/
def setAV (k v : Str) : List (Str × Str) → List (Str × Str)
  | [] => [(k, v)]
  | (k', v') :: rest => if k' = k then (k, v) :: rest else (k', v') :: setAV k v rest

def avLookup (k : Str) : List (Str × Str) → Option Str
  | [] => none
  | (k', v') :: rest => if k' = k then some v' else avLookup k rest

/-- Fold one captured triple into the part, mirroring the `if/elif` chain in
`_split_selector` (the source `assert False`s on any other type marker;
we leave the part unchanged there). -/
def foldTriple (p : Part) (tr : Triple) : Part :=
  match tr with
  | (none, n, _) => { p with type := n }
  | (some t, n, v) =>
    if t = cstr "." then { p with classes := addIfNew n p.classes }
    else if t = cstr "#" then { p with id := n }
    else if t = cstr ":" then { p with pseudoclasses := addIfNew n p.pseudoclasses }
    else if t = cstr "::" then { p with pseudoelements := addIfNew n p.pseudoelements }
    else if t = cstr "[" then
      match v with
      | none => { p with attribs := addIfNew n p.attribs }
      | some v => { p with attribvals := setAV n v p.attribvals }
    else p

/-- `UI_Style_RuleSet._split_selector` (memoization dropped: pure function). -/
def splitSelector (s : Str) : Part :=
  (scanTriples s).foldl foldTriple Part.empty

/-- The `names` set computed at the end of `_split_selector`: all identifying
names in a part (type added unless it is `*` or `>`, id added if nonempty). -/
def partNames (p : Part) : List Str :=
  p.classes ++ p.pseudoelements ++ p.pseudoclasses ++ p.attribs
    ++ p.attribvals.map Prod.fst
    ++ (if p.type ≠ cstr "*" && p.type ≠ cstr ">" then [p.type] else [])
    ++ (if p.id ≠ [] then [p.id] else [])

/-! ## `UI_Style_RuleSet._join_selector_parts` -/

/-- `_join_selector_parts`.  NOTE (faithful to the source, line 428): the
pseudoelement facet is emitted with a single `:`, exactly like
pseudoclasses, even though the splitter and the trie use `::`. -/
def joinSelectorParts (p : Part) : Str :=
  (if p.type ≠ [] then p.type else cstr "*")
  ++ (p.classes.map (fun c => '.' :: c)).flatten
  ++ (if p.id ≠ [] then '#' :: p.id else [])
  ++ (p.pseudoclasses.map (fun c => ':' :: c)).flatten
  ++ (p.pseudoelements.map (fun c => ':' :: c)).flatten
  ++ (p.attribs.map (fun a => '[' :: a ++ [']'])).flatten
  ++ (p.attribvals.map (fun kv => '[' :: kv.1 ++ '=' :: '"' :: kv.2 ++ ['"', ']'])).flatten

/-! ## `UI_Styling.strip_selector_parts` -/

/-- Facet erasure applied to one decomposed part for a given strip set. -/
def eraseFacets (strip : List String) (p : Part) : Part :=
  let p := if "type" ∈ strip then { p with type := cstr "*" } else p
  let p := if "id" ∈ strip then { p with id := [] } else p
  let p := if "classes" ∈ strip then { p with classes := [] } else p
  let p := if "pseudoelements" ∈ strip then { p with pseudoelements := [] } else p
  let p := if "pseudoclasses" ∈ strip then { p with pseudoclasses := [] } else p
  let p := if "attributes" ∈ strip then { p with attribs := [] } else p
  let p := if "attributevalues" ∈ strip then { p with attribvals := [] } else p
  p

/-- `UI_Styling.strip_selector_parts` (memoization dropped: pure function).
An empty strip set is falsy in Python, so the selector is returned as is. -/
def stripSelectorParts (selector : List Str) (strip : List String) : List Str :=
  if strip = [] then selector
  else selector.map (fun sel => joinSelectorParts (eraseFacets strip (splitSelector sel)))

/-- The fixed strip set used by `UI_Styling.trim_styling`. -/
def trimStrip : List String :=
  ["pseudoelements", "pseudoclasses", "attributes", "attributevalues"]

/-! ## Recursive selector matching (`UI_Style_RuleSet._match_selector`)

The source walks the chains from the rightmost (subject) part backwards
using negative indices; we pass the chains *reversed* (subject first) to the
core so that the walk is structural, and reverse in the public wrapper
`matchSelector` below. -/

/-- `_match_selector_approx` on reversed chains (`[-1]` becomes the head). -/
def matchApprox (ptsElem ptsStyle : List Part) (checkEnd : Bool) : Bool :=
  let endOk :=
    if checkEnd then
      match ptsElem, ptsStyle with
      | pe :: _, ps :: _ =>
        (decide (ps.type = cstr "*") || decide (ps.type = cstr ">")
          || decide (pe.type = ps.type))
        && (decide (ps.id = []) || decide (pe.id = ps.id))
      | _, _ => true
    else true
  let namesElem := (ptsElem.map partNames).flatten
  let namesStyle :=
    ((ptsStyle.map partNames).flatten).filter
      (fun n => n ≠ cstr "*" && n ≠ cstr ">")
  endOk && namesStyle.all (fun n => decide (n ∈ namesElem))

/-- `_match_selector_parts`: structural comparison of two rightmost parts. -/
def matchParts (ap bp : Part) : Bool :=
  ((decide (bp.type = cstr "*") && decide (ap.type ≠ [])) || decide (ap.type = bp.type))
  && (decide (bp.id = []) || decide (ap.id = bp.id))
  && bp.classes.all (fun c => decide (c ∈ ap.classes))
  && bp.pseudoelements.all (fun c => decide (c ∈ ap.pseudoelements))
  && bp.pseudoclasses.all (fun c => decide (c ∈ ap.pseudoclasses))
  && bp.attribs.all (fun k => decide (k ∈ ap.attribs))
  && bp.attribvals.all (fun kv => decide (avLookup kv.1 ap.attribvals = some kv.2))

/-- `_match_selector` on reversed chains, fuelled so that evaluation is by
kernel reduction (the wrapper supplies fuel exceeding the recursion depth,
which is bounded by the number of chain entries). -/
def mselF : Nat → List Str → List Part → List Str → List Part → Bool → Bool
  | 0, _, _, _, _, _ => false
  | _ + 1, _, _, [], _, _ => true
  | _ + 1, [], _, _ :: _, _, _ => false
  | fuel + 1, se :: seR, pe :: peR, ss :: ssR, ps :: psR, cont =>
    if ss = cstr ">" then
      mselF fuel (se :: seR) (pe :: peR) ssR psR false
    else if !matchApprox (pe :: peR) (ps :: psR) (!cont) then false
    else if matchParts pe ps && mselF fuel seR peR ssR psR true then true
    else if !cont then false
    else mselF fuel seR peR (ss :: ssR) (ps :: psR) true
  | _ + 1, _, _, _, _, _ => false

/-- `_match_selector` (chains in source order, root first). -/
def mselRev (selElem : List Str) (ptsElem : List Part) (selStyle : List Str)
    (ptsStyle : List Part) (cont : Bool) : Bool :=
  mselF (selElem.length + selStyle.length + 1) selElem ptsElem selStyle ptsStyle cont

/-- `UI_Style_RuleSet.match_selector`: strip both chains, split, match
(`cont` defaults to `False` in the source). -/
def matchSelector (selElem selStyle : List Str) (strip : List String) : Bool :=
  let selElem := stripSelectorParts selElem strip
  let selStyle := stripSelectorParts selStyle strip
  let partsElem := selElem.map splitSelector
  let partsStyle := selStyle.map splitSelector
  mselRev selElem.reverse partsElem.reverse selStyle.reverse partsStyle.reverse false

/-! ## Declarations and rule sets

Parsed declaration values are lexer-converted tokens: plain strings
(identifiers, keywords, quoted strings, urls), colors, cursor constants, and
number-with-unit values.  `Color` and `NumberUnit` live in excluded modules
(`maths`), so they are carried opaquely, tagged with their lexemes; the
styling engine only ever tests their Python *type* (`is Color`,
`is NumberUnit`) and compares values for equality. -/

inductive Value where
  | str : Str → Value
  | color : Str → Value
  | cursor : Str → Value
  | numU : Str → Str → Value
deriving DecidableEq, Repr, Inhabited

/-- A declaration value: one token or a tuple of tokens. -/
inductive DeclValue where
  | one : Value → DeclValue
  | tup : List Value → DeclValue
deriving DecidableEq, Repr

/-- `UI_Style_Declaration`. -/
structure Decl where
  property : Str
  value : DeclValue
deriving DecidableEq, Repr

/-- `UI_Style_RuleSet` (matching caches dropped: pure functions of their
keys; `uid` is the value drawn from the global `UniqueCounter`). -/
structure RuleSet where
  uid : Nat
  selectors : List (List Str)
  decllist : List Decl
deriving DecidableEq, Repr

/-- `UI_Style_RuleSet.match` (memoization dropped; `strip=None` is the
empty list here, both being falsy for `strip_selector_parts`). -/
def RuleSet.matchSel (r : RuleSet) (selElem : List Str) (strip : List String) : Bool :=
  r.selectors.any (fun selStyle => matchSelector selElem selStyle strip)

/-! ## Specificity (`UI_Style_RuleSet.selector_specificity`) -/

abbrev Specif := Nat × Nat × Nat × Nat × Nat

/-- `selector_specificity`: (inline, id count, class/pseudoclass/attrib
count, explicit-type count, uid).  Note the source counts only explicit
types into the fourth slot (pseudoelements are not counted despite the
comment there). -/
def selectorSpecificity (selector : List Str) (uid : Nat) (inline : Bool) : Specif :=
  let parts := selector.map splitSelector
  let bcd :=
    parts.foldl
      (fun (acc : Nat × Nat × Nat) p =>
        (acc.1 + (if p.id ≠ [] then 1 else 0),
         acc.2.1 + p.classes.length + p.pseudoclasses.length
           + p.attribs.length + p.attribvals.length,
         acc.2.2 + (if p.type ≠ [] && p.type ≠ cstr "*" && p.type ≠ cstr ">" then 1 else 0)))
      (0, 0, 0)
  ((if inline then 1 else 0), bcd.1, bcd.2.1, bcd.2.2, uid)

/-- Lexicographic comparison of specificity tuples (Python tuple `<=`). -/
def specLE (x y : Specif) : Bool :=
  decide (x.1 < y.1) || (decide (x.1 = y.1) &&
    (decide (x.2.1 < y.2.1) || (decide (x.2.1 = y.2.1) &&
      (decide (x.2.2.1 < y.2.2.1) || (decide (x.2.2.1 = y.2.2.1) &&
        (decide (x.2.2.2.1 < y.2.2.2.1) || (decide (x.2.2.2.1 = y.2.2.2.1) &&
          decide (x.2.2.2.2 ≤ y.2.2.2.2))))))))

/-- Stable insertion into a `specLE`-sorted list (equal keys keep the
earlier element first, like Python's stable `list.sort`). -/
def insertSpec (x : Specif × RuleSet) : List (Specif × RuleSet) → List (Specif × RuleSet)
  | [] => [x]
  | y :: ys => if specLE y.1 x.1 then y :: insertSpec x ys else x :: y :: ys

/-- Stable ascending sort by specificity (Python `rules.sort(key=...)`). -/
def sortSpec (l : List (Specif × RuleSet)) : List (Specif × RuleSet) :=
  l.foldr insertSpec []

/-! ## Shorthand declaration expansion (`UI_Styling._expand_declarations`)

The computed style is a Python dict; we model it as an association list with
dict update semantics (overwrite in place, else append). -/

abbrev StyleMap := List (Str × DeclValue)

def mapSet (k : Str) (v : DeclValue) : StyleMap → StyleMap
  | [] => [(k, v)]
  | (k', v') :: rest => if k' = k then (k, v) :: rest else (k', v') :: mapSet k v rest

def mapGet (k : Str) : StyleMap → Option DeclValue
  | [] => none
  | (k', v') :: rest => if k' = k then some v' else mapGet k rest

/-- `UI_Styling._trbl_split` for an already-tuple value. -/
def trblSplitList : List Value → Value × Value × Value × Value
  | [] => (.str [], .str [], .str [], .str [])
  | [a] => (a, a, a, a)
  | [a, b] => (a, b, a, b)
  | [a, b, c] => (a, b, c, b)
  | a :: b :: c :: d :: _ => (a, b, c, d)

/-- `UI_Styling._trbl_split`. -/
def trblSplit : DeclValue → Value × Value × Value × Value
  | .one v => (v, v, v, v)
  | .tup l => trblSplitList l

def defaultFont : List Value :=
  [.str (cstr "normal"), .str (cstr "normal"), .str (cstr "12"), .str (cstr "sans-serif")]

def defaultFontKeys : List Str :=
  [cstr "default", cstr "caption", cstr "icon", cstr "menu", cstr "message-box",
   cstr "small-caption", cstr "status-bar"]

/-- Python truthiness of a declaration value slot (only the empty string is
falsy among the values that occur here). -/
def valueTruthy : Value → Bool
  | .str s => decide (s ≠ [])
  | _ => true

/-- `UI_Styling._font_split`: non-tuples select a default font table row;
tuples are padded slot-wise with the `default` row (`zip_longest`). -/
def fontSplit : DeclValue → Value × Value × Value × Value
  | .one _ =>
    (defaultFont[0]!, defaultFont[1]!, defaultFont[2]!, defaultFont[3]!)
      -- every row of `default_fonts` is the same tuple, so membership of
      -- the scalar value in the table does not change the result
  | .tup l =>
    let pick := fun (i : Nat) =>
      match l[i]? with
      | some v => if valueTruthy v then v else defaultFont[i]!
      | none => defaultFont[i]!
    (pick 0, pick 1, pick 2, pick 3)

def isNumLike : Value → Bool
  | .numU _ _ => true
  | _ => false

def isColorVal : Value → Bool
  | .color _ => true
  | _ => false

/-- One step of `_expand_declarations`: fold a single declaration into the
accumulated dict, following the `if/elif` chain of the source. -/
def expandStep (m : StyleMap) (d : Decl) : StyleMap :=
  let p := d.property
  let v := d.value
  if p = cstr "margin" || p = cstr "padding" then
    let vals := trblSplit v
    let m := mapSet (p ++ cstr "-top") (.one vals.1) m
    let m := mapSet (p ++ cstr "-right") (.one vals.2.1) m
    let m := mapSet (p ++ cstr "-bottom") (.one vals.2.2.1) m
    mapSet (p ++ cstr "-left") (.one vals.2.2.2) m
  else if p = cstr "border" then
    let l := match v with | .one v' => [v'] | .tup l => l
    let (m, l) :=
      match l with
      | v0 :: rest =>
        if isNumLike v0 then (mapSet (cstr "border-width") (.one v0) m, rest)
        else (m, v0 :: rest)
      | [] => (m, l)
    if l ≠ [] then
      let vals := trblSplitList l
      let m := mapSet (cstr "border-top-color") (.one vals.1) m
      let m := mapSet (cstr "border-right-color") (.one vals.2.1) m
      let m := mapSet (cstr "border-bottom-color") (.one vals.2.2.1) m
      mapSet (cstr "border-left-color") (.one vals.2.2.2) m
    else m
  else if p = cstr "border-color" then
    let vals := trblSplit v
    let m := mapSet (cstr "border-top-color") (.one vals.1) m
    let m := mapSet (cstr "border-right-color") (.one vals.2.1) m
    let m := mapSet (cstr "border-bottom-color") (.one vals.2.2.1) m
    mapSet (cstr "border-left-color") (.one vals.2.2.2) m
  else if p = cstr "font" then
    let vals := fontSplit v
    let m := mapSet (cstr "font-style") (.one vals.1) m
    let m := mapSet (cstr "font-weight") (.one vals.2.1) m
    let m := mapSet (cstr "font-size") (.one vals.2.2.1) m
    mapSet (cstr "font-family") (.one vals.2.2.2) m
  else if p = cstr "background" then
    let l := match v with | .one v' => [v'] | .tup l => l
    l.foldl
      (fun m ev =>
        if isColorVal ev then mapSet (cstr "background-color") (.one ev) m
        else mapSet (cstr "background-image") (.one ev) m)
      m
  else if p = cstr "width" then
    mapSet (cstr "width") v m
  else if p = cstr "height" then
    let m := mapSet (cstr "height") v m
    let m := mapSet (cstr "min-height") v m
    mapSet (cstr "max-height") v m
  else if p = cstr "overflow" then
    if v = .one (.str (cstr "scroll")) then
      let m := mapSet (cstr "overflow-x") (.one (.str (cstr "auto"))) m
      mapSet (cstr "overflow-y") (.one (.str (cstr "scroll"))) m
    else
      let m := mapSet (cstr "overflow-x") v m
      mapSet (cstr "overflow-y") v m
  else
    mapSet p v m

/-- `UI_Styling._expand_declarations`: fold all declarations, then drop
properties whose final value is the literal string `initial`. -/
def expandDeclarations (decls : List Decl) : StyleMap :=
  (decls.foldl expandStep []).filter (fun kv => kv.2 ≠ .one (.str (cstr "initial")))

/-! ## The selector trie (`UI_Styling.optimize` / `get_matching_rules`)

`optimize` walks each selector chain rightmost-first, descending one trie
edge per atomic facet (type, `#id`, `.class`, `::pe`, `:pc`, `[a]`,
`[k="v"]`), with a combinator edge (`' '` or `'>'`) between simple
selectors.  Python `set.pop` order is unspecified; our parts store facets in
insertion order, which is the order used here.  Trie nodes are dicts in
insertion order, modelled as association lists; the `__parent`/`__uid`
bookkeeping (used only by the debug printers) is dropped. -/

/-- The facet edges emitted for one part, in the priority order of the
insertion loop: type, id, classes, pseudoelements, pseudoclasses, attribs,
attribvals. -/
def partFacetEdges (p : Part) : List Str :=
  (if p.type ≠ [] then [p.type] else [])
  ++ (if p.id ≠ [] then ['#' :: p.id] else [])
  ++ p.classes.map (fun c => '.' :: c)
  ++ p.pseudoelements.map (fun pe => ':' :: ':' :: pe)
  ++ p.pseudoclasses.map (fun pc => ':' :: pc)
  ++ p.attribs.map (fun a => '[' :: a ++ [']'])
  ++ p.attribvals.map (fun kv => '[' :: kv.1 ++ '=' :: '"' :: kv.2 ++ ['"', ']'])

/-- The full edge path the insertion loop walks for one selector chain
(parts in chain order).  The boolean tracks whether the walk is still at the
trie root (no combinator edge is emitted from the root); `>`-typed parts are
the child-combinator markers consumed together with the next part. -/
def selPathGo : List Part → Bool → List Str
  | [], _ => []
  | [p], _ => partFacetEdges p
  | p :: q :: rest', atRoot =>
    let es := partFacetEdges p
    if atRoot && es.isEmpty then es ++ selPathGo (q :: rest') (atRoot && es.isEmpty)
    else if q.type = cstr ">" then es ++ [cstr ">"] ++ selPathGo rest' false
    else es ++ [cstr " "] ++ selPathGo (q :: rest') false

def selectorPath (parts : List Part) : List Str :=
  selPathGo parts.reverse true

/-- A trie node: outgoing edges (dict in insertion order) and the
`(specificity, rule)` pairs accumulated at this node (`__rulesets`). -/
inductive Trie where
  | node : List (Str × Trie) → List (Specif × RuleSet) → Trie
deriving Repr

def Trie.edges : Trie → List (Str × Trie)
  | .node es _ => es

def Trie.rulesets : Trie → List (Specif × RuleSet)
  | .node _ rs => rs

def lookupEdge (label : Str) : List (Str × Trie) → Option Trie
  | [] => none
  | (l, t) :: rest => if l = label then some t else lookupEdge label rest

def setEdge (label : Str) (t : Trie) : List (Str × Trie) → List (Str × Trie)
  | [] => [(label, t)]
  | (l, t') :: rest => if l = label then (label, t) :: rest else (l, t') :: setEdge label t rest

/-- Insert one edge path into the trie, appending the item to the terminal
node's ruleset list. -/
def trieInsertPath (t : Trie) : List Str → Specif × RuleSet → Trie
  | [], item => .node t.edges (t.rulesets ++ [item])
  | e :: es, item =>
    let child := (lookupEdge e t.edges).getD (.node [] [])
    .node (setEdge e (trieInsertPath child es item) t.edges) t.rulesets

/-- `UI_Styling.optimize`: build the trie from the rule list (rules in load
order, selectors in declaration order). -/
def buildTrie (rules : List RuleSet) (inline : Bool) : Trie :=
  rules.foldl
    (fun t rule =>
      rule.selectors.foldl
        (fun t selector =>
          let specificity := selectorSpecificity selector rule.uid inline
          trieInsertPath t (selectorPath (selector.map splitSelector)) (specificity, rule))
        t)
    (.node [] [])

/-- Parse the content of an attribute edge label back into key/value, as the
query does: strip the square brackets, split on `=`, strip quotes. -/
def splitOnEq (s : Str) : List Str :=
  match s with
  | [] => [[]]
  | c :: cs =>
    let r := splitOnEq cs
    if c = '=' then [] :: r
    else
      match r with
      | [] => [[c]]
      | h :: t => (c :: h) :: t

/-!
The query-time traversal `m` of `get_matching_rules`, fuelled so that it is
structurally recursive on the fuel (the wrapper supplies fuel exceeding the
trie depth, so the bound is never hit).  In the source, a `'>'` edge reached
with an exhausted element chain raises `IndexError` (`parts[-1]` on `[]`);
chains produced by the UI tree are never shorter than a matching style
path, and we model the missing case as no match.  The `while ps:` loop of
the descendant (`' '`) edge tries every split point of the element chain,
innermost ancestor first; the splits are enumerated with `List.tails`.
-/
def trieQuery : Nat → Trie → Part → List Part → List (Specif × RuleSet)
  | 0, _, _, _ => []
  | fuel + 1, t, part, parts =>
    t.rulesets ++
      (t.edges.map (fun ec =>
        let label := ec.1
        let child := ec.2
        if label = cstr " " then
          ((parts.reverse.tails.filterMap (fun l =>
              match l with
              | [] => none
              | p :: ps => some (p, ps.reverse))).map
            (fun pr => trieQuery fuel child pr.1 pr.2)).flatten
        else if label = cstr ">" then
          match parts.reverse with
          | [] => []
          | p :: ps => trieQuery fuel child p ps.reverse
        else if label = cstr "*" then trieQuery fuel child part parts
        else if label.take 1 = cstr "#" then
          if label.drop 1 = part.id then trieQuery fuel child part parts else []
        else if label.take 1 = cstr "." then
          if label.drop 1 ∈ part.classes then trieQuery fuel child part parts else []
        else if label.length > 2 ∧ (label.drop 1).take 1 = cstr ":" then
          if label.drop 2 ∈ part.pseudoelements then trieQuery fuel child part parts else []
        else if label.take 1 = cstr ":" then
          if label.drop 1 ∈ part.pseudoclasses then trieQuery fuel child part parts else []
        else if label.take 1 = cstr "[" then
          let pieces := splitOnEq ((label.drop 1).dropLast)  -- edge_label[1:-1].split('=')
          match pieces with
          | [k] => if k ∈ part.attribs then trieQuery fuel child part parts else []
          | k :: v :: _ =>
            if avLookup k part.attribvals = some ((v.drop 1).dropLast)  -- strip quotes
            then trieQuery fuel child part parts else []
          | [] => []
        else if label = part.type then trieQuery fuel child part parts else [])).flatten

/-- Fuel that strictly exceeds any query recursion depth: the trie depth is
bounded by the longest insertion path. -/
def queryFuel (rules : List RuleSet) : Nat :=
  1 + (rules.map (fun r =>
        (r.selectors.map (fun s => (selectorPath (s.map splitSelector)).length + 1)).sum)).sum

/-- `UI_Styling.get_matching_rules`: build the trie, run the traversal from
the subject part, sort all collected `(specificity, rule)` pairs by
specificity ascending, and return the rules. -/
def getMatchingRules (rules : List RuleSet) (inline : Bool) (selector : List Str) : List RuleSet :=
  let t := buildTrie rules inline
  let parts := selector.map splitSelector
  let collected :=
    match parts.reverse with
    | [] => []  -- `parts[-1]` on an empty selector raises in the source
    | p :: ps => trieQuery (queryFuel rules) t p ps.reverse
  (sortSpec collected).map Prod.snd

/-! ## The stylesheet facade (`UI_Styling`) -/

/-- A parsed stylesheet, pure view: the rule list and the inline flag.
(The mutable cache fields are modelled separately, see `StylingS`.) -/
structure Styling where
  rules : List RuleSet
  inline : Bool
deriving Repr

/-- `UI_Styling.get_decllist` (first call, cache empty): declarations of
the trie-matched rules, concatenated in sorted order. -/
def getDecllist (st : Styling) (selector : List Str) : List Decl :=
  if st.rules = [] then []
  else ((getMatchingRules st.rules st.inline selector).map RuleSet.decllist).flatten

/-- The non-indexed reference path preserved in the source as the
commented-out body of `get_decllist` (line 786):
`[d for rule in self.rules if rule.match(selector) for d in rule.decllist]` —
every rule in load order, recursive matcher. -/
def getDecllistLoadOrder (st : Styling) (selector : List Str) : List Decl :=
  if st.rules = [] then []
  else ((st.rules.filter (fun r => r.matchSel selector [])).map RuleSet.decllist).flatten

/-- `UI_Styling.compute_style`: `None` selector yields the empty map;
otherwise concatenate each (non-`None`) styling's declaration list and
expand.  `None` entries in `stylings` are skipped (`if styling`). -/
def computeStyle (selector : Option (List Str)) (stylings : List (Option Styling)) : StyleMap :=
  match selector with
  | none => []
  | some sel =>
    let full := ((stylings.filterMap id).map (fun st => getDecllist st sel)).flatten
    expandDeclarations full

/-- `compute_style` along the non-indexed reference path. -/
def computeStyleLoadOrder (selector : Option (List Str)) (stylings : List (Option Styling)) : StyleMap :=
  match selector with
  | none => []
  | some sel =>
    let full := ((stylings.filterMap id).map (fun st => getDecllistLoadOrder st sel)).flatten
    expandDeclarations full

/-- `UI_Styling._has_matches` (first call, cache empty). -/
def hasMatchesOne (st : Styling) (selector : List Str) : Bool :=
  if st.rules = [] then false
  else st.rules.any (fun r => r.matchSel selector [])

/-- `UI_Styling.has_matches`: `None` selector yields `False`; `None`
stylings are skipped. -/
def hasMatches (selector : Option (List Str)) (stylings : List (Option Styling)) : Bool :=
  match selector with
  | none => false
  | some sel => (stylings.filterMap id).any (fun st => hasMatchesOne st sel)

/-- `UI_Styling.trim_styling` (first call, cache empty): strip the volatile
facets from the chain and keep every rule that matches the stripped chain
under the same strip set.  The result is a fresh (non-inline) styling. -/
def trimStyling (selector : List Str) (stylings : List Styling) : Styling :=
  let nselector := stripSelectorParts selector trimStrip
  { rules := (stylings.map (fun st => st.rules.filter (fun r => r.matchSel nselector trimStrip))).flatten,
    inline := false }

/-! ## The numeric token rule

The `num` entry of `token_rules` is the single pattern

  `(?P<num>-?((\d*[.]\d+)|\d+))(?P<unit>px|vw|vh|pt|%|)`

`numTokenMatches` decides whether a lexeme is matched in full by that
pattern (the language the regex denotes). -/

def numUnits : List Str := [cstr "px", cstr "vw", cstr "vh", cstr "pt", cstr "%", []]

/-- The numeral body `(\d*[.]\d+)|\d+`: a maximal leading digit run, then
either nothing (second alternative, needs at least one digit) or a dot
followed by a nonempty digit run (first alternative). -/
def numeralCore (s : Str) : Bool :=
  match (takeRun Char.isDigit s).2 with
  | [] => decide ((takeRun Char.isDigit s).1 ≠ [])
  | '.' :: b => decide (b ≠ []) && b.all Char.isDigit
  | _ => false

/-- Whether `u` is a suffix of `s`; `numTail s u` is `s` without it. -/
def numTail (s u : Str) : Str := s.take (s.length - u.length)

def hasSuffix (s u : Str) : Bool :=
  decide (u.length ≤ s.length) && decide (s.drop (s.length - u.length) = u)

/-! ## Stripping, part-wise (for the trim-monotonicity claim)

`trim_styling` matches rules against the chain stripped of its volatile
facets.  `stripOne` is the per-string action of `strip_selector_parts` with
the trim strip set; `stripPart` is its effect on the decomposed part
(splitting the re-joined string maps an empty type to `*`, since the join
prints empty types as `*`). -/

def stripOne (x : Str) : Str :=
  joinSelectorParts (eraseFacets trimStrip (splitSelector x))

def stripPart (p : Part) : Part :=
  ⟨(if p.type = [] then cstr "*" else p.type), p.classes, p.id, [], [], [], []⟩

/-- A chain entry is well formed when a `>`-typed entry is exactly the
combinator string `>` (the matcher compares the raw string against `'>'`,
so a part whose *type* facet is `>` but that carries other facets would be
a malformed chain; the parser never produces one). -/
def WFSel (x : Str) : Bool :=
  decide (x = cstr ">") || decide ((splitSelector x).type ≠ cstr ">")

def WFChain (chain : List Str) : Bool := chain.all WFSel

def WFRule (r : RuleSet) : Bool := r.selectors.all WFChain

/-! ## The mutable cache state of `UI_Styling` (for the invalidation claim)

A `UI_Styling` object owns four pieces of mutable derived state: the lazily
built trie (`self._trie`, `None` until the first `optimize`), the
declaration-list cache (`self._decllist_cache`, keyed by `str(selector)` —
the chain itself serves as the key here), and the match cache
(`self._matches_cache`, keyed by `tuple(selector)`).  The global caches on
`trim_styling` and `strip_selector_parts` hold pure functions of their keys
and are not part of the object state.  Each source method becomes a state
transition returning its result and the updated state. -/

structure StylingS where
  rules : List RuleSet
  inline : Bool
  trie : Option Trie
  decllistCache : List (List Str × List Decl)
  matchesCache : List (List Str × Bool)

def cacheLookup {α : Type} (k : List Str) : List (List Str × α) → Option α
  | [] => none
  | (k', v) :: rest => if k' = k then some v else cacheLookup k rest

/-- `UI_Styling.optimize`: build the trie once; a second call is a no-op. -/
def optimizeS (s : StylingS) : StylingS :=
  match s.trie with
  | some _ => s
  | none => { s with trie := some (buildTrie s.rules s.inline) }

/-- `UI_Styling.get_matching_rules` on the object state: ensures the trie
exists, then queries whatever trie is stored (stale or not). -/
def getMatchingRulesS (s : StylingS) (selector : List Str) :
    List RuleSet × StylingS :=
  let s := optimizeS s
  let t := s.trie.getD (.node [] [])
  let parts := selector.map splitSelector
  let collected :=
    match parts.reverse with
    | [] => []
    | p :: ps => trieQuery (queryFuel s.rules + 1) t p ps.reverse
  ((sortSpec collected).map Prod.snd, s)

/-- `UI_Styling.get_decllist` with its cache. -/
def getDecllistS (s : StylingS) (selector : List Str) :
    List Decl × StylingS :=
  if s.rules = [] then ([], s)
  else
    match cacheLookup selector s.decllistCache with
    | some d => (d, s)
    | none =>
      let rs := getMatchingRulesS s selector
      let d := (rs.1.map RuleSet.decllist).flatten
      (d, { rs.2 with decllistCache := rs.2.decllistCache ++ [(selector, d)] })

/-- `UI_Styling._has_matches` with its cache. -/
def hasMatchesS (s : StylingS) (selector : List Str) : Bool × StylingS :=
  if s.rules = [] then (false, s)
  else
    match cacheLookup selector s.matchesCache with
    | some b => (b, s)
    | none =>
      let b := s.rules.any (fun r => r.matchSel selector [])
      (b, { s with matchesCache := s.matchesCache ++ [(selector, b)] })

/-- `UI_Styling.clear_cache`, exactly as the source has it: it resets
`self._decllist_cache` (and the two global pure-function caches, which have
no state here) — it does **not** reset `self._trie` and it does not reset
`self._matches_cache`. -/
def clearCacheS (s : StylingS) : StylingS :=
  { s with decllistCache := [] }

/-- `UI_Styling.append`: clear caches (as far as `clear_cache` goes), then
extend the rule list. -/
def appendS (s other : StylingS) : StylingS :=
  let s := clearCacheS s
  { s with rules := s.rules ++ other.rules }

/-- A freshly parsed styling state: rules present, no trie, empty caches. -/
def freshS (rules : List RuleSet) : StylingS :=
  { rules := rules, inline := false, trie := none,
    decllistCache := [], matchesCache := [] }

/-- The optional sign `-?` before the numeral body. -/
def numSigned (t : Str) : Bool :=
  match t with
  | [] => numeralCore []
  | c :: core => if c = '-' then numeralCore core else numeralCore (c :: core)

/-- Full-string match of the `num` token pattern. -/
def numTokenMatches (s : Str) : Bool :=
  numUnits.any (fun u => hasSuffix s u && numSigned (numTail s u))

/-! ## The lexer (`token_rules` with `Parse_Lexer`)

The token-rule table below (patterns, their order, and their converters) is
the `token_rules` list of the source.  The lexer engine itself
(`Parse_CharStream`/`Parse_Lexer` from `parse.py`) and the value converters
(`ui_utilities.py`) are *not* part of this repository snapshot; they are
modelled from the spec (§4.1): left-to-right, longest-applicable-first,
greedy tokenization; whitespace and comments are recognized and discarded;
an unmatched character is a fatal error.  Because the rule-set parser
dispatches on kind *membership* (`'combinator' in lexer.peek_t()`,
`'id' in lexer.peek_t()`), a token carries every rule kind whose pattern
attains the longest match, and its value comes from the first such rule's
converter. -/

/-- Whether `u` is a leading segment of `s`. -/
def leadsWith (u s : Str) : Bool := decide (s.take u.length = u)

/-- Longest keyword of `kws` that starts `s`. -/
def kwLen (kws : List Str) (s : Str) : Option Nat :=
  kws.foldl
    (fun acc k =>
      if leadsWith k s then
        match acc with
        | none => some k.length
        | some m => some (max m k.length)
      else acc)
    none

/-- `ignore` rule: one whitespace character, or a `/* ... */` comment. -/
def commentLen : Nat → Str → Option Nat
  | 0, _ => none
  | _ + 1, '*' :: '/' :: _ => some 2
  | fuel + 1, _ :: rest => (commentLen fuel rest).map (· + 1)
  | _ + 1, [] => none

def ignoreLen (s : Str) : Option Nat :=
  match s with
  | [] => none
  | c :: _ =>
    if c = ' ' ∨ c = '\t' ∨ c = '\r' ∨ c = '\n' then some 1
    else if leadsWith (cstr "/*") s then
      (commentLen s.length (s.drop 2)).map (· + 2)
    else none

/-- `special` rule: `[-.*>{},();#~]|[:]+`. -/
def specialLen (s : Str) : Option Nat :=
  match s with
  | [] => none
  | c :: _ =>
    if c = ':' then some (takeRun (fun c' => c' = ':') s).1.length
    else if c ∈ cstr "-.*>\x7b,\x7d();#~" then some 1
    else none

/-- `combinator` rule: `[>~]`. -/
def combinatorLen (s : Str) : Option Nat :=
  match s with
  | c :: _ => if c = '>' ∨ c = '~' then some 1 else none
  | [] => none

def isAttrKeyChar (c : Char) : Bool := c = '-' || c.isAlpha || c = '_'

/-- `attribute` rule: `\[([-a-zA-Z_]+)((=)"([^"]*)")?\]`. -/
def attributeLen (s : Str) : Option Nat :=
  match s with
  | '[' :: r =>
    let k := takeRun isAttrKeyChar r
    if k.1 = [] then none
    else
      match k.2 with
      | ']' :: _ => some (1 + k.1.length + 1)
      | '=' :: '"' :: r3 =>
        let v := takeRun (fun c => !(c = '"')) r3
        match v.2 with
        | '"' :: ']' :: _ => some (1 + k.1.length + 2 + v.1.length + 2)
        | _ => none
      | _ => none
  | _ => none

/-- `url` rule: `url\([\'"]?([^)]*?)[\'"]?\)` — everything to the first
closing parenthesis. -/
def findCloseParen : Nat → Str → Option Nat
  | 0, _ => none
  | _ + 1, ')' :: _ => some 1
  | fuel + 1, _ :: rest => (findCloseParen fuel rest).map (· + 1)
  | _ + 1, [] => none

def urlLen (s : Str) : Option Nat :=
  if leadsWith (cstr "url(") s then
    (findCloseParen s.length (s.drop 4)).map (· + 4)
  else none

/-- `string` rule: `"([^"]*?)"`. -/
def stringLen (s : Str) : Option Nat :=
  match s with
  | '"' :: r =>
    let v := takeRun (fun c => !(c = '"')) r
    match v.2 with
    | '"' :: _ => some (v.1.length + 2)
    | _ => none
  | _ => none

def isHexChar (c : Char) : Bool :=
  c.isDigit || ('a' ≤ c && c ≤ 'f') || ('A' ≤ c && c ≤ 'F')

/-- `#RRGGBB`. -/
def hexColorLen (s : Str) : Option Nat :=
  match s with
  | '#' :: r => if (r.take 6).length = 6 ∧ (r.take 6).all isHexChar then some 7 else none
  | _ => none

/-- Functional color forms `rgb( ... )`, `rgba( ... )`, `hsl( ... )`,
`hsla( ... )`.  Modelled from the spec: the argument lists (digit groups,
decimals, percent signs, commas, spaces) are scanned up to the closing
parenthesis. -/
def colorFuncLen (s : Str) : Option Nat :=
  (([cstr "rgba(", cstr "rgb(", cstr "hsla(", cstr "hsl("].filterMap
    (fun h =>
      if leadsWith h s then
        let body := takeRun (fun c => c.isDigit || c = '.' || c = ',' || c = ' ' || c = '%')
          (s.drop h.length)
        match body.2 with
        | ')' :: _ => some (h.length + body.1.length + 1)
        | _ => none
      else none)).head?)

/-- `num` rule as a longest-prefix matcher: `-?((\d*[.]\d+)|\d+)` then the
first unit of `px|vw|vh|pt|%|` that follows. -/
def numLen (s : Str) : Option Nat :=
  let sgn : Nat := match s with | '-' :: _ => 1 | _ => 0
  let s1 := s.drop sgn
  let a := takeRun Char.isDigit s1
  let numlen : Option Nat :=
    match a.2 with
    | '.' :: r2 =>
      let b := takeRun Char.isDigit r2
      if b.1 ≠ [] then some (a.1.length + 1 + b.1.length)
      else if a.1 ≠ [] then some a.1.length else none
    | _ => if a.1 ≠ [] then some a.1.length else none
  match numlen with
  | none => none
  | some n =>
    let rest := s1.drop n
    let unitLen : Nat :=
      if leadsWith (cstr "px") rest then 2
      else if leadsWith (cstr "vw") rest then 2
      else if leadsWith (cstr "vh") rest then 2
      else if leadsWith (cstr "pt") rest then 2
      else if leadsWith (cstr "%") rest then 1
      else 0
    some (sgn + n + unitLen)

/-- `id` rule: `[a-zA-Z_][a-zA-Z_\-0-9]*`. -/
def idLen (s : Str) : Option Nat :=
  match s with
  | c :: r =>
    if c.isAlpha ∨ c = '_' then
      some (1 + (takeRun (fun c' => c'.isAlpha || c' = '_' || c' = '-' || c'.isDigit) r).1.length)
    else none
  | [] => none

/-- The `key` patterns, alternations expanded. -/
def keyKws : List Str :=
  ["color", "display",
   "background", "background-color", "background-image",
   "margin", "margin-left", "margin-right", "margin-top", "margin-bottom",
   "padding", "padding-left", "padding-right", "padding-top", "padding-bottom",
   "border", "border-width", "border-radius",
   "border-color", "border-left-color", "border-right-color",
   "border-top-color", "border-bottom-color",
   "width", "min-width", "max-width",
   "height", "min-height", "max-height",
   "left", "top", "right", "bottom",
   "cursor",
   "overflow", "overflow-x", "overflow-y",
   "position",
   "flex", "flex-direction", "flex-wrap", "flex-grow", "flex-shrink", "flex-basis",
   "justify-content", "align-content", "align-items",
   "font", "font-style", "font-weight", "font-size", "font-family",
   "white-space", "content", "object-fit", "text-shadow", "z-index"].map cstr

/-- The `value` patterns. -/
def valueKws : List Str :=
  ["auto", "inline", "block", "none", "flexbox", "table", "table-row", "table-cell",
   "visible", "hidden", "scroll",
   "static", "absolute", "relative", "fixed", "sticky",
   "column", "row", "nowrap", "wrap",
   "flex-start", "flex-end", "center", "stretch",
   "normal", "italic", "bold",
   "serif", "sans-serif", "monospace",
   "pre", "pre-wrap", "pre-line",
   "fill", "contain", "cover", "scale-down"].map cstr

/-- The `cursor` patterns. -/
def cursorKws : List Str :=
  ["default", "auto", "initial", "none", "wait", "grab", "crosshair", "pointer",
   "text", "e-resize", "w-resize", "ew-resize", "n-resize", "s-resize", "ns-resize",
   "all-scroll"].map cstr

/-- The named colors of the `color` rule (plus `transparent`). -/
def colorKws : List Str :=
  ["transparent",
   "indianred", "lightcoral", "salmon", "darksalmon", "lightsalmon", "crimson",
   "red", "firebrick", "darkred",
   "pink", "lightpink", "hotpink", "deeppink", "mediumvioletred", "palevioletred",
   "coral", "tomato", "orangered", "darkorange", "orange",
   "gold", "yellow", "lightyellow", "lemonchiffon", "lightgoldenrodyellow",
   "papayawhip", "moccasin",
   "peachpuff", "palegoldenrod", "khaki", "darkkhaki",
   "lavender", "thistle", "plum", "violet", "orchid", "fuchsia", "magenta",
   "mediumorchid", "mediumpurple",
   "blueviolet", "darkviolet", "darkorchid", "darkmagenta", "purple",
   "rebeccapurple", "indigo",
   "mediumslateblue", "slateblue", "darkslateblue",
   "greenyellow", "chartreuse", "lawngreen", "lime", "limegreen", "palegreen",
   "lightgreen",
   "mediumspringgreen", "springgreen", "mediumseagreen", "seagreen",
   "forestgreen", "green",
   "darkgreen", "yellowgreen", "olivedrab", "olive", "darkolivegreen",
   "mediumaquamarine",
   "darkseagreen", "lightseagreen", "darkcyan", "teal",
   "aqua", "cyan", "lightcyan", "paleturquoise", "aquamarine", "turquoise",
   "mediumturquoise",
   "darkturquoise", "cadetblue", "steelblue", "lightsteelblue", "powderblue",
   "lightblue", "skyblue",
   "lightskyblue", "deepskyblue", "dodgerblue", "cornflowerblue", "royalblue",
   "blue", "mediumblue",
   "darkblue", "navy", "midnightblue",
   "cornsilk", "blanchedalmond", "bisque", "navajowhite", "wheat", "burlywood",
   "tan", "rosybrown",
   "sandybrown", "goldenrod", "darkgoldenrod", "peru", "chocolate",
   "saddlebrown", "sienna", "brown", "maroon",
   "white", "snow", "honeydew", "mintcream", "azure", "aliceblue", "ghostwhite",
   "whitesmoke", "seashell",
   "beige", "oldlace", "floralwhite", "ivory", "antiquewhite", "linen",
   "lavenderblush", "mistyrose",
   "gainsboro", "lightgray", "lightgrey", "silver", "darkgray", "darkgrey",
   "gray", "grey", "dimgray", "dimgrey",
   "lightslategray", "lightslategrey", "slategray", "slategrey",
   "darkslategray", "darkslategrey", "black"].map cstr

def pseudoclassKws : List Str := ["hover", "active", "focus", "disabled"].map cstr

def pseudoelementKws : List Str := ["before", "after"].map cstr

/-- `color` rule: named colors, `#RRGGBB`, functional forms. -/
def colorLen (s : Str) : Option Nat :=
  [kwLen colorKws s, hexColorLen s, colorFuncLen s].foldl
    (fun acc o =>
      match acc, o with
      | none, o => o
      | some m, none => some m
      | some m, some n => some (max m n))
    none

/-- The ordered token-rule table of the source (`token_rules`). -/
def tokenRuleList : List (String × (Str → Option Nat)) :=
  [("ignore", ignoreLen),
   ("special", specialLen),
   ("combinator", combinatorLen),
   ("attribute", attributeLen),
   ("key", kwLen keyKws),
   ("value", kwLen valueKws),
   ("url", urlLen),
   ("string", stringLen),
   ("cursor", kwLen cursorKws),
   ("color", colorLen),
   ("pseudoclass", kwLen pseudoclassKws),
   ("pseudoelement", kwLen pseudoelementKws),
   ("num", numLen),
   ("id", idLen)]

/-- A token: every rule kind attaining the longest match, plus the
converted value (first such rule's converter). -/
structure Token where
  kinds : List String
  value : Value
deriving DecidableEq, Repr

/-- Modelled from the spec: the `convert_token_to_*` converters of
`ui_utilities.py` (not in this snapshot).  String-like rules keep their
lexeme; `string`/`url` keep the quoted/parenthesized content; `cursor` and
`color` produce opaque converted values tagged with their lexeme; `num`
splits into scalar and unit (`convert_token_to_numberunit`). -/
def convertToken (kind : String) (lexeme : Str) : Value :=
  if kind = "cursor" then .cursor lexeme
  else if kind = "color" then .color lexeme
  else if kind = "num" then
    match numUnits.find? (fun u => hasSuffix lexeme u && numSigned (numTail lexeme u)) with
    | some u => .numU (numTail lexeme u) u
    | none => .numU lexeme []
  else if kind = "string" then .str ((lexeme.drop 1).dropLast)
  else if kind = "url" then
    let inner := (lexeme.drop 4).dropLast
    let inner := match inner with | '\'' :: r => r | '"' :: r => r | r => r
    let inner := match inner.reverse with | '\'' :: r => r.reverse | '"' :: r => r.reverse | _ => inner
    .str inner
  else .str lexeme

/-- Longest match across all rules; ties keep every matching kind, in rule
order. -/
def bestMatch (s : Str) : Option (Nat × List String) :=
  tokenRuleList.foldl
    (fun acc rule =>
      match rule.2 s with
      | none => acc
      | some n =>
        if n = 0 then acc
        else
          match acc with
          | none => some (n, [rule.1])
          | some (m, ks) =>
            if n > m then some (n, [rule.1])
            else if n = m then some (m, ks ++ [rule.1])
            else acc)
    none

/-- Modelled from the spec: the `Parse_CharStream`/`Parse_Lexer` driver of
`parse.py` (not in this snapshot): longest-applicable-first greedy
tokenization, `ignore` tokens skipped, unmatched input a fatal error. -/
def tokenizeF : Nat → Str → Except Unit (List Token)
  | 0, _ => .error ()
  | _ + 1, [] => .ok []
  | fuel + 1, s =>
    match bestMatch s with
    | none => .error ()
    | some (n, kinds) =>
      let lexeme := s.take n
      let rest := s.drop n
      if "ignore" ∈ kinds then tokenizeF fuel rest
      else do
        let toks ← tokenizeF fuel rest
        .ok ({ kinds := kinds, value := convertToken (kinds.headD "") lexeme } :: toks)

def tokenize (s : Str) : Except Unit (List Token) :=
  tokenizeF (s.length + 1) s

/-! ## The rule-set parser (`UI_Style_Declaration.from_lexer`,
`UI_Style_RuleSet.from_lexer`, `UI_Styling.load_from_text`)

The lexer interface (`peek_t`, `peek_v`, `match_t_v`, `match_v_v`,
`next_v`) acts on the token list; at end of input `peek_t` answers `eof`
(the driver loop tests exactly this) and the matchers fail, which is the
`SyntaxError` of the source, modelled as `Except.error`.  Loops carry fuel
bounded by the token count; every iteration consumes at least one token,
so the bound is never hit on real inputs. -/

def peekT (ts : List Token) : List String :=
  match ts with
  | [] => ["eof"]
  | t :: _ => t.kinds

def peekV (ts : List Token) : Value :=
  match ts with
  | [] => .str (cstr "eof")
  | t :: _ => t.value

/-- `match_t_v`: consume a token of the given kind, returning its value
(as a string; the kinds requested this way all carry string values). -/
def matchTV (kind : String) (ts : List Token) : Except Unit (Str × List Token) :=
  match ts with
  | [] => .error ()
  | t :: rest =>
    if kind ∈ t.kinds then
      match t.value with
      | .str s => .ok (s, rest)
      | _ => .error ()
    else .error ()

/-- `match_v_v` with a single expected value. -/
def matchVV (v : Str) (ts : List Token) : Except Unit (Str × List Token) :=
  match ts with
  | [] => .error ()
  | t :: rest => if t.value = .str v then .ok (v, rest) else .error ()

/-- `match_v_v` with a set of expected values. -/
def matchVVset (vs : List Str) (ts : List Token) : Except Unit (Str × List Token) :=
  match ts with
  | [] => .error ()
  | t :: rest =>
    match t.value with
    | .str s => if s ∈ vs then .ok (s, rest) else .error ()
    | _ => .error ()

/-- `next_v`. -/
def nextV (ts : List Token) : Except Unit (Value × List Token) :=
  match ts with
  | [] => .error ()
  | t :: rest => .ok (t.value, rest)

/-- The facet loop of `match_identifier` inside `UI_Style_RuleSet.from_lexer`. -/
def identLoop : Nat → Str → List Token → Except Unit (Str × List Token)
  | 0, _, _ => .error ()
  | fuel + 1, e, ts =>
    if peekV ts = .str (cstr ".") ∨ peekV ts = .str (cstr "#") then do
      let (v, ts) ← matchVVset [cstr ".", cstr "#"] ts
      let (n, ts) ← matchTV "id" ts
      identLoop fuel (e ++ v ++ n) ts
    else if peekV ts = .str (cstr ":") then do
      let (v, ts) ← matchVV (cstr ":") ts
      let (n, ts) ← matchTV "pseudoclass" ts
      identLoop fuel (e ++ v ++ n) ts
    else if peekV ts = .str (cstr "::") then do
      let (v, ts) ← matchVV (cstr "::") ts
      let (n, ts) ← matchTV "pseudoelement" ts
      identLoop fuel (e ++ v ++ n) ts
    else if "attribute" ∈ peekT ts then do
      let (a, ts) ← matchTV "attribute" ts
      identLoop fuel (e ++ a) ts
    else .ok (e, ts)

/-- `match_identifier`: a leading `.`/`#`/`:`/`::` implies type `*`. -/
def matchIdentifier (ts : List Token) : Except Unit (Str × List Token) := do
  let (e, ts) ←
    if peekV ts = .str (cstr ".") ∨ peekV ts = .str (cstr "#")
        ∨ peekV ts = .str (cstr ":") ∨ peekV ts = .str (cstr "::") then
      .ok (cstr "*", ts)
    else if peekV ts = .str (cstr "*") then matchVV (cstr "*") ts
    else matchTV "id" ts
  identLoop (ts.length + 1) e ts

/-- The selector-group loop of `UI_Style_RuleSet.from_lexer` (the source
`assert False`s on an unexpected token; that abort is an error here). -/
def selectorLoop : Nat → List (List Str) → List Token →
    Except Unit (List (List Str) × List Token)
  | 0, _, _ => .error ()
  | fuel + 1, sels, ts =>
    if peekV ts = .str (cstr "\x7b") then .ok (sels, ts)
    else if peekV ts = .str (cstr "*") ∨ "id" ∈ peekT ts then do
      let (e, ts) ← matchIdentifier ts
      selectorLoop fuel (sels.dropLast ++ [(sels.getLastD []) ++ [e]]) ts
    else if "combinator" ∈ peekT ts then do
      let (c, ts) ← matchTV "combinator" ts
      let (e, ts) ← matchIdentifier ts
      selectorLoop fuel (sels.dropLast ++ [(sels.getLastD []) ++ [c, e]]) ts
    else if peekV ts = .str (cstr ",") then do
      let (_, ts) ← matchVV (cstr ",") ts
      selectorLoop fuel (sels ++ [[]]) ts
    else .error ()

/-- The value-tuple loop of `UI_Style_Declaration.from_lexer`. -/
def declValueLoop : Nat → List Value → List Token →
    Except Unit (List Value × List Token)
  | 0, _, _ => .error ()
  | fuel + 1, l, ts =>
    if peekV ts = .str (cstr ";") ∨ peekV ts = .str (cstr "\x7d") then .ok (l, ts)
    else do
      let (v, ts) ← nextV ts
      declValueLoop fuel (l ++ [v]) ts

/-- `UI_Style_Declaration.from_lexer`: `key ':' value+ ';'`. -/
def declFromLexer (ts : List Token) : Except Unit (Decl × List Token) := do
  let (prop, ts) ← matchTV "key" ts
  let (_, ts) ← matchVV (cstr ":") ts
  let (v, ts) ← nextV ts
  let (val, ts) ←
    if peekV ts = .str (cstr ";") then .ok ((DeclValue.one v), ts)
    else do
      let (l, ts) ← declValueLoop (ts.length + 1) [v] ts
      .ok (DeclValue.tup l, ts)
  let (_, ts) ← matchVV (cstr ";") ts
  .ok (⟨prop, val⟩, ts)

/-- The declaration-block loop of `UI_Style_RuleSet.from_lexer`: skip stray
`;`, stop at `}`. -/
def declLoop : Nat → List Decl → List Token → Except Unit (List Decl × List Token)
  | 0, _, _ => .error ()
  | fuel + 1, decls, ts =>
    if peekV ts = .str (cstr ";") then do
      let (_, ts) ← matchVV (cstr ";") ts
      declLoop fuel decls ts
    else if peekV ts = .str (cstr "\x7d") then .ok (decls, ts)
    else do
      let (d, ts) ← declFromLexer ts
      declLoop fuel (decls ++ [d]) ts

/-- `UI_Style_RuleSet.from_lexer` (the uid is supplied by the caller,
standing for the global `UniqueCounter`). -/
def rulesetFromLexer (uid : Nat) (ts : List Token) :
    Except Unit (RuleSet × List Token) := do
  let (sels, ts) ← selectorLoop (ts.length + 1) [[]] ts
  let (_, ts) ← matchVV (cstr "\x7b") ts
  let (decls, ts) ← declLoop (ts.length + 1) [] ts
  let (_, ts) ← matchVV (cstr "\x7d") ts
  .ok (⟨uid, sels, decls⟩, ts)

/-- The `while lexer.peek_t() != 'eof'` loop of `load_from_text`: the rules
parsed so far are kept when a later rule set fails to parse (Python appends
to `self.rules` in place and the exception propagates). -/
def ruleLoop : Nat → List RuleSet → Nat → List Token → List RuleSet × Option Unit
  | 0, acc, _, _ => (acc, some ())
  | fuel + 1, acc, uid, ts =>
    if peekT ts = ["eof"] then (acc, none)
    else
      match rulesetFromLexer uid ts with
      | .error _ => (acc, some ())
      | .ok (rs, ts') => ruleLoop fuel (acc ++ [rs]) (uid + 1) ts'

def parseRules (toks : List Token) : List RuleSet × Option Unit :=
  ruleLoop (toks.length + 1) [] 1 toks

/-- `UI_Styling.load_from_text` as a state transition: clear the caches (as
far as `clear_cache` goes), reset `rules` to `[]`, then parse, appending
each rule set as it completes; the second component reports the
`SyntaxError`, with `rules` left holding whatever was parsed before it.
(The source lexes lazily inside the parse loop; tokenization is modelled
eagerly here, so a *lexer* error yields `rules = []` rather than a partial
prefix — the parse-error behaviour, which the claim is about, is
identical.) -/
def loadFromTextS (s : StylingS) (text : Str) : StylingS × Option Unit :=
  let s := clearCacheS s
  let s := { s with rules := [] }
  if text = [] then (s, none)
  else
    match tokenize text with
    | .error _ => (s, some ())
    | .ok toks =>
      let pr := parseRules toks
      ({ s with rules := pr.1 }, pr.2)

end UIStyle

namespace UIStyle

/-! ## Association-list (Python dict) lemmas used by the claim proofs -/

theorem mapGet_mapSet_self (k : Str) (v : DeclValue) :
    ∀ m : StyleMap, mapGet k (mapSet k v m) = some v
  | [] => by simp [mapSet, mapGet]
  | (k', v') :: rest => by
    by_cases h : k' = k
    · simp [mapSet, mapGet, h]
    · simp [mapSet, mapGet, h, mapGet_mapSet_self k v rest]

theorem mapGet_mapSet_ne (k k' : Str) (v : DeclValue) (h : k ≠ k') :
    ∀ m : StyleMap, mapGet k (mapSet k' v m) = mapGet k m
  | [] => by simp [mapSet, mapGet, Ne.symm h]
  | (ka, va) :: rest => by
    by_cases hk : ka = k'
    · subst hk
      simp [mapSet, mapGet, Ne.symm h]
    · by_cases hk2 : ka = k
      · simp [mapSet, mapGet, hk, hk2, h]
      · simp [mapSet, mapGet, hk, hk2, mapGet_mapSet_ne k k' v h rest]

/-- Keys of a style map. -/
def mapKeys (m : StyleMap) : List Str := m.map Prod.fst

theorem mem_mapKeys_mapSet (x k : Str) (v : DeclValue) :
    ∀ m : StyleMap, (x ∈ mapKeys (mapSet k v m) ↔ x = k ∨ x ∈ mapKeys m)
  | [] => by simp [mapSet, mapKeys]
  | (ka, va) :: rest => by
    by_cases hk : ka = k
    · subst hk
      simp [mapSet, mapKeys]
    · simp only [mapSet, if_neg hk, mapKeys, List.map_cons, List.mem_cons]
      have := mem_mapKeys_mapSet x k v rest
      simp only [mapKeys] at this
      rw [this]
      tauto

theorem nodup_mapSet (k : Str) (v : DeclValue) :
    ∀ m : StyleMap, (mapKeys m).Nodup → (mapKeys (mapSet k v m)).Nodup
  | [] => by simp [mapSet, mapKeys]
  | (ka, va) :: rest => by
    intro h
    simp only [mapKeys, List.map_cons, List.nodup_cons] at h
    by_cases hk : ka = k
    · subst hk
      have hset : mapSet ka v ((ka, va) :: rest) = (ka, v) :: rest := by simp [mapSet]
      rw [hset]
      simp only [mapKeys, List.map_cons, List.nodup_cons]
      exact ⟨by simpa [mapKeys] using h.1, by simpa [mapKeys] using h.2⟩
    · simp only [mapSet, if_neg hk, mapKeys, List.map_cons, List.nodup_cons]
      constructor
      · intro hmem
        rcases (mem_mapKeys_mapSet ka k v rest).1 (by simpa [mapKeys] using hmem) with h1 | h2
        · exact hk h1
        · exact h.1 (by simpa [mapKeys] using h2)
      · have := nodup_mapSet k v rest (by simpa [mapKeys] using h.2)
        simpa [mapKeys] using this

theorem mapGet_eq_none_of_not_mem (k : Str) :
    ∀ m : StyleMap, k ∉ mapKeys m → mapGet k m = none
  | [] => by simp [mapGet]
  | (ka, va) :: rest => by
    intro h
    simp only [mapKeys, List.map_cons, List.mem_cons, not_or] at h
    simp only [mapGet, if_neg (fun hh : ka = k => h.1 hh.symm)]
    exact mapGet_eq_none_of_not_mem k rest (by simpa [mapKeys] using h.2)

/-- If the first entry for `k` survives the value filter, it is still the
first entry for `k` afterwards. -/
theorem mapGet_filter_of_true (P : DeclValue → Bool) (k : Str) (v : DeclValue) :
    ∀ m : StyleMap, mapGet k m = some v → P v = true →
      mapGet k (m.filter (fun kv => P kv.2)) = some v
  | [] => by simp [mapGet]
  | (ka, va) :: rest => by
    intro h hP
    by_cases hk : ka = k
    · subst hk
      have hv : va = v := by simpa [mapGet] using h
      subst hv
      simp [List.filter_cons, hP, mapGet]
    · simp only [mapGet, if_neg hk] at h
      by_cases hp : P va
      · simpa [List.filter_cons, hp, mapGet, hk] using
          mapGet_filter_of_true P k v rest h hP
      · simpa [List.filter_cons, hp] using mapGet_filter_of_true P k v rest h hP

/-- Setting an unrelated key commutes with filtered lookup. -/
theorem mapGet_filter_mapSet_ne (P : DeclValue → Bool) (k k' : Str) (v : DeclValue)
    (h : k ≠ k') :
    ∀ m : StyleMap, mapGet k ((mapSet k' v m).filter (fun kv => P kv.2))
      = mapGet k (m.filter (fun kv => P kv.2))
  | [] => by
    by_cases hp : P v <;>
      simp [mapSet, List.filter_cons, hp, mapGet, Ne.symm h]
  | (ka, va) :: rest => by
    by_cases hk : ka = k'
    · subst hk
      have hset : mapSet ka v ((ka, va) :: rest) = (ka, v) :: rest := by simp [mapSet]
      rw [hset]
      have hka : ka ≠ k := fun hh => h hh.symm
      by_cases hpv : P v <;> by_cases hpa : P va <;>
        simp [List.filter_cons, hpv, hpa, mapGet, hka]
    · have hset : mapSet k' v ((ka, va) :: rest) = (ka, va) :: mapSet k' v rest := by
        simp [mapSet, hk]
      rw [hset]
      by_cases hpa : P va
      · simp only [List.filter_cons, hpa, if_pos, mapGet]
        by_cases hka : ka = k
        · simp [hka]
        · simpa [hka] using mapGet_filter_mapSet_ne P k k' v h rest
      · simpa [List.filter_cons, hpa] using mapGet_filter_mapSet_ne P k k' v h rest

/-- Looking a key up after the value filter (unique keys): the entry
survives exactly when its value does. -/
theorem mapGet_filter (P : DeclValue → Bool) (k : Str) :
    ∀ m : StyleMap, (mapKeys m).Nodup →
      mapGet k (m.filter (fun kv => P kv.2)) =
        match mapGet k m with
        | some v => if P v then some v else none
        | none => none
  | [] => by intro _; simp [mapGet]
  | (ka, va) :: rest => by
    intro h
    simp only [mapKeys, List.map_cons, List.nodup_cons] at h
    have ih := mapGet_filter P k rest (by simpa [mapKeys] using h.2)
    by_cases hk : ka = k
    · subst hk
      by_cases hp : P va
      · simp [mapGet, List.filter_cons, hp]
      · have hnone : mapGet ka rest = none :=
          mapGet_eq_none_of_not_mem ka rest (by simpa [mapKeys] using h.1)
        have hfil : mapGet ka (rest.filter (fun kv => P kv.2)) = none := by
          rw [ih, hnone]
        simp [mapGet, List.filter_cons, hp, hfil]
    · by_cases hp : P va
      · simpa [mapGet, List.filter_cons, hp, hk] using ih
      · simpa [mapGet, List.filter_cons, hp, hk] using ih

/-! ## `takeRun` and suffix lemmas (for the numeric-token characterization) -/

theorem takeRun_append_recover (p : Char → Bool) :
    ∀ s : Str, (takeRun p s).1 ++ (takeRun p s).2 = s
  | [] => rfl
  | c :: cs => by
    by_cases h : p c
    · simp [takeRun, h, takeRun_append_recover p cs]
    · simp [takeRun, h]

theorem takeRun_fst_all (p : Char → Bool) :
    ∀ s : Str, ∀ c ∈ (takeRun p s).1, p c = true
  | [] => by simp [takeRun]
  | c :: cs => by
    by_cases h : p c
    · simpa [takeRun, h] using takeRun_fst_all p cs
    · simp [takeRun, h]

theorem takeRun_snd_head (p : Char → Bool) :
    ∀ s : Str, ∀ c t, (takeRun p s).2 = c :: t → p c = false
  | [] => by simp [takeRun]
  | c :: cs => by
    cases hpc : p c with
    | true => simpa [takeRun, hpc] using takeRun_snd_head p cs
    | false =>
      intro c' t' he
      have hsnd : (takeRun p (c :: cs)).2 = c :: cs := by simp [takeRun, hpc]
      rw [hsnd] at he
      cases he
      exact hpc

theorem takeRun_of_all (p : Char → Bool) :
    ∀ a b : Str, (∀ c ∈ a, p c = true) → (∀ c t, b = c :: t → p c = false) →
      takeRun p (a ++ b) = (a, b)
  | [], [], _, _ => rfl
  | [], c :: t, _, hb => by
    have := hb c t rfl
    simp [takeRun, this]
  | c :: a, b, ha, hb => by
    have hc : p c = true := ha c (by simp)
    have := takeRun_of_all p a b (fun c' hc' => ha c' (by simp [hc'])) hb
    simp [takeRun, hc, this]

theorem hasSuffix_iff (s u : Str) : hasSuffix s u = true ↔ ∃ x, s = x ++ u := by
  constructor
  · intro h
    simp only [hasSuffix, Bool.and_eq_true, decide_eq_true_eq] at h
    refine ⟨s.take (s.length - u.length), ?_⟩
    conv_lhs => rw [← List.take_append_drop (s.length - u.length) s]
    rw [h.2]
  · rintro ⟨x, rfl⟩
    simp only [hasSuffix, Bool.and_eq_true, decide_eq_true_eq]
    refine ⟨by simp only [List.length_append]; omega, ?_⟩
    have hlen : (x ++ u).length - u.length = x.length := by simp
    rw [hlen, List.drop_left]

theorem numTail_append (x u : Str) : numTail (x ++ u) u = x := by
  have : (x ++ u).length - u.length = x.length := by simp
  rw [numTail, this, List.take_left]

/-- The language of the numeral body `(\d*[.]\d+)|\d+`. -/
theorem numeralCore_iff (s : Str) :
    numeralCore s = true ↔
      (s ≠ [] ∧ s.all Char.isDigit = true)
      ∨ ∃ a b : Str, s = a ++ '.' :: b ∧ a.all Char.isDigit = true
          ∧ b ≠ [] ∧ b.all Char.isDigit = true := by
  constructor
  · intro h
    unfold numeralCore at h
    rcases hr : (takeRun Char.isDigit s).2 with _ | ⟨c, rest⟩
    · left
      rw [hr] at h
      have hs : (takeRun Char.isDigit s).1 = s := by
        have := takeRun_append_recover Char.isDigit s
        rw [hr] at this; simpa using this
      refine ⟨by rw [← hs]; simpa using h, ?_⟩
      rw [List.all_eq_true]
      intro c hc
      exact takeRun_fst_all Char.isDigit s c (by rw [hs]; exact hc)
    · rw [hr] at h
      by_cases hdot : c = '.'
      · subst hdot
        right
        refine ⟨(takeRun Char.isDigit s).1, rest, ?_, ?_, ?_, ?_⟩
        · rw [← hr]; exact (takeRun_append_recover Char.isDigit s).symm
        · rw [List.all_eq_true]; exact fun c hc => takeRun_fst_all Char.isDigit s c hc
        · simp only [Bool.and_eq_true, decide_eq_true_eq] at h; exact h.1
        · simp only [Bool.and_eq_true, decide_eq_true_eq] at h; exact h.2
      · exfalso
        revert h
        cases c
        simp_all
  · rintro (⟨hne, hall⟩ | ⟨a, b, rfl, ha, hb, hball⟩)
    · unfold numeralCore
      have : takeRun Char.isDigit s = (s, []) := by
        have := takeRun_of_all Char.isDigit s [] (by simpa [List.all_eq_true] using hall)
          (by intro c t hct; cases hct)
        simpa using this
      rw [this]
      simpa using hne
    · unfold numeralCore
      have : takeRun Char.isDigit (a ++ '.' :: b) = (a, '.' :: b) :=
        takeRun_of_all Char.isDigit a ('.' :: b)
          (by simpa [List.all_eq_true] using ha)
          (by intro c t hct; cases hct; rfl)
      rw [this]
      simp [hb, hball]

/-- The language of the optionally signed numeral `-?((\d*[.]\d+)|\d+)`. -/
theorem numSigned_iff (t : Str) :
    numSigned t = true ↔
      ∃ sign core : Str, t = sign ++ core ∧ (sign = [] ∨ sign = cstr "-")
        ∧ numeralCore core = true := by
  have hminus : ∀ l : Str, numeralCore ('-' :: l) = false := by
    intro l
    simp [numeralCore, takeRun]
  constructor
  · intro h
    rcases t with _ | ⟨c, core⟩
    · exact ⟨[], [], rfl, Or.inl rfl, h⟩
    · by_cases hc : c = '-'
      · subst hc
        simp only [numSigned, if_pos rfl] at h
        exact ⟨cstr "-", core, rfl, Or.inr rfl, h⟩
      · simp only [numSigned, if_neg hc] at h
        exact ⟨[], c :: core, rfl, Or.inl rfl, h⟩
  · rintro ⟨sign, core, rfl, hsign | hsign, hcore⟩
    · subst hsign
      rcases core with _ | ⟨c, core2⟩
      · exact hcore
      · by_cases hc : c = '-'
        · subst hc
          rw [hminus core2] at hcore
          cases hcore
        · simpa [numSigned, hc] using hcore
    · subst hsign
      simpa [numSigned, cstr] using hcore

/-! ## Scanner well-formedness and the split/join round trip on stripped
parts (for the trim-monotonicity claim) -/

/-- A well-formed facet name: nonempty, all name characters. -/
def GoodName (n : Str) : Prop := n ≠ [] ∧ ∀ c ∈ n, isNameChar c = true

/-- The facets of a part that survive the trim strip are well formed. -/
def GoodPart (p : Part) : Prop :=
  (p.type = [] ∨ GoodName p.type) ∧ (∀ c ∈ p.classes, GoodName c)
    ∧ (p.id = [] ∨ GoodName p.id) ∧ p.classes.Nodup

theorem nameChar_not_typeChar (c : Char) (h : isNameChar c = true) :
    isTypeChar c = false := by
  simp only [isNameChar, Bool.not_eq_true', Bool.or_eq_false_iff,
    decide_eq_false_iff_not] at h
  simp only [isTypeChar, Bool.or_eq_false_iff, decide_eq_false_iff_not]
  tauto

theorem takeRun_length_split (p : Char → Bool) (s : Str) :
    (takeRun p s).1.length + (takeRun p s).2.length = s.length := by
  have := takeRun_append_recover p s
  calc (takeRun p s).1.length + (takeRun p s).2.length
      = ((takeRun p s).1 ++ (takeRun p s).2).length := by rw [List.length_append]
    _ = s.length := by rw [this]

theorem dropBracket_length_le (s : Str) : (dropBracket s).length ≤ s.length := by
  unfold dropBracket
  split
  · simp
  · exact Nat.le_refl _

theorem tryTriple_name_good (s : Str) (ty : Option Str) (n : Str) (v : Option Str)
    (rest : Str) (h : tryTriple s = some ((ty, n, v), rest)) : GoodName n := by
  unfold tryTriple at h
  by_cases hn : (takeRun isNameChar (takeRun isTypeChar s).2).1 = []
  · simp [hn] at h
  · simp only [hn, if_neg, ite_false] at h
    have hname : n = (takeRun isNameChar (takeRun isTypeChar s).2).1 := by
      rcases hsnd : (takeRun isNameChar (takeRun isTypeChar s).2).2 with _ | ⟨c, r2⟩
      · rw [hsnd] at h; simp at h; exact h.1.2.1.symm
      · by_cases hc : c = '='
        · subst hc
          rcases r2 with _ | ⟨c2, r3⟩
          · rw [hsnd] at h; simp at h; exact h.1.2.1.symm
          · by_cases hc2 : c2 = '"'
            · subst hc2
              rw [hsnd] at h
              rcases hv : (takeRun (fun c => !(c = '"')) r3).1 with _ | ⟨d, v1⟩
              · simp [hv] at h; exact h.1.2.1.symm
              · rcases hv2 : (takeRun (fun c => !(c = '"')) r3).2 with _ | ⟨d2, v2⟩
                · simp [hv, hv2] at h; exact h.1.2.1.symm
                · by_cases hd2 : d2 = '"'
                  · subst hd2; simp [hv, hv2] at h; exact h.1.2.1.symm
                  · have : ¬(d2 = '"') := hd2
                    simp [hv, hv2, this] at h
                    exact h.1.2.1.symm
            · rw [hsnd] at h
              simp [hc2] at h
              exact h.1.2.1.symm
        · rw [hsnd] at h
          simp [hc] at h
          exact h.1.2.1.symm
    subst hname
    exact ⟨hn, fun c hc => takeRun_fst_all isNameChar _ c hc⟩

theorem tryTriple_rest_lt (s : Str) (tr : Triple) (rest : Str)
    (h : tryTriple s = some (tr, rest)) : rest.length < s.length := by
  unfold tryTriple at h
  by_cases hne : (takeRun isNameChar (takeRun isTypeChar s).2).1 = []
  · simp [hne] at h
  · simp only [hne, if_neg, ite_false] at h
    have hts := takeRun_length_split isTypeChar s
    have hnt := takeRun_length_split isNameChar (takeRun isTypeChar s).2
    have hn1 : 1 ≤ (takeRun isNameChar (takeRun isTypeChar s).2).1.length := by
      cases hx : (takeRun isNameChar (takeRun isTypeChar s).2).1 with
      | nil => exact absurd hx hne
      | cons a b => simp [hx]
    have hrest : rest.length ≤ (takeRun isNameChar (takeRun isTypeChar s).2).2.length := by
      rcases hsnd : (takeRun isNameChar (takeRun isTypeChar s).2).2 with _ | ⟨c, r2⟩
      · rw [hsnd] at h
        simp at h
        rw [← h.2]
        simp [dropBracket]
      · by_cases hc : c = '='
        · subst hc
          rcases r2 with _ | ⟨c2, r3⟩
          · rw [hsnd] at h
            simp at h
            rw [← h.2, ← hsnd]
            exact dropBracket_length_le _
          · by_cases hc2 : c2 = '"'
            · subst hc2
              rw [hsnd] at h
              have hvs := takeRun_length_split (fun c => !(c = '"')) r3
              rcases hv : (takeRun (fun c => !(c = '"')) r3).1 with _ | ⟨d, v1⟩
              · simp [hv] at h
                rw [← h.2, ← hsnd]
                exact dropBracket_length_le _
              · rcases hv2 : (takeRun (fun c => !(c = '"')) r3).2 with _ | ⟨d2, v2⟩
                · simp [hv, hv2] at h
                  rw [← h.2, ← hsnd]
                  exact dropBracket_length_le _
                · by_cases hd2 : d2 = '"'
                  · subst hd2
                    simp [hv, hv2] at h
                    have hv2len : v2.length < r3.length := by
                      rw [hv2] at hvs
                      simp at hvs
                      omega
                    rw [← h.2]
                    have hdb := dropBracket_length_le v2
                    simp only [List.length_cons]
                    omega
                  · have hne2 : ¬(d2 = '"') := hd2
                    simp [hv, hv2, hne2] at h
                    rw [← h.2, ← hsnd]
                    exact dropBracket_length_le _
            · rw [hsnd] at h
              simp [hc2] at h
              rw [← h.2, ← hsnd]
              exact dropBracket_length_le _
        · rw [hsnd] at h
          simp [hc] at h
          rw [← h.2, ← hsnd]
          exact dropBracket_length_le _
    omega

/-- Fuel irrelevance for the scanner. -/
theorem scanTriplesF_ge :
    ∀ (fuel : Nat) (s : Str), s.length ≤ fuel → scanTriplesF fuel s = scanTriples s := by
  intro fuel
  induction fuel using Nat.strong_induction_on with
  | _ fuel ih =>
    intro s hs
    cases fuel with
    | zero =>
      have : s = [] := by
        cases s with
        | nil => rfl
        | cons c cs => simp at hs
      subst this
      rfl
    | succ f =>
      cases s with
      | nil => rfl
      | cons c cs =>
        have hcs : cs.length ≤ f := by simpa using hs
        cases htr : tryTriple (c :: cs) with
        | none =>
          have l1 : scanTriplesF (f + 1) (c :: cs) = scanTriplesF f cs := by
            simp [scanTriplesF, htr]
          have r1 : scanTriples (c :: cs) = scanTriplesF cs.length cs := by
            rw [scanTriples]
            show scanTriplesF (cs.length + 1) (c :: cs) = _
            simp [scanTriplesF, htr]
          rw [l1, r1, ih f (Nat.lt_succ_self f) cs hcs]
          rw [scanTriples]
        | some pr =>
          obtain ⟨tr, rest⟩ := pr
          have hlt : rest.length < cs.length + 1 := by
            simpa using tryTriple_rest_lt _ _ _ htr
          have l1 : scanTriplesF (f + 1) (c :: cs) = tr :: scanTriplesF f rest := by
            simp [scanTriplesF, htr]
          have r1 : scanTriples (c :: cs) = tr :: scanTriplesF cs.length rest := by
            rw [scanTriples]
            show scanTriplesF (cs.length + 1) (c :: cs) = _
            simp [scanTriplesF, htr]
          rw [l1, r1, ih f (Nat.lt_succ_self f) rest (by omega),
            ih cs.length (by omega) rest (by omega)]

theorem scanTriplesF_names (fuel : Nat) :
    ∀ (s : Str) (tr : Triple), tr ∈ scanTriplesF fuel s → GoodName tr.2.1 := by
  induction fuel with
  | zero => intro s tr h; simp [scanTriplesF] at h
  | succ f ih =>
    intro s tr h
    cases s with
    | nil => simp [scanTriplesF] at h
    | cons c cs =>
      cases htr : tryTriple (c :: cs) with
      | none =>
        rw [scanTriplesF, htr] at h
        exact ih cs tr h
      | some pr =>
        obtain ⟨⟨ty, n, v⟩, rest⟩ := pr
        rw [scanTriplesF, htr] at h
        rcases List.mem_cons.1 h with h1 | h2
        · subst h1
          exact tryTriple_name_good _ _ _ _ _ htr
        · exact ih rest tr h2

theorem goodName_addIfNew (n : Str) (xs : List Str) (hn : GoodName n)
    (hxs : ∀ c ∈ xs, GoodName c) : ∀ c ∈ addIfNew n xs, GoodName c := by
  intro c hc
  unfold addIfNew at hc
  by_cases hmem : n ∈ xs
  · rw [if_pos hmem] at hc
    exact hxs c hc
  · rw [if_neg hmem] at hc
    rcases List.mem_append.1 hc with h1 | h2
    · exact hxs c h1
    · rw [List.mem_singleton.1 h2]
      exact hn

theorem nodup_addIfNew (n : Str) (xs : List Str) (h : xs.Nodup) :
    (addIfNew n xs).Nodup := by
  unfold addIfNew
  by_cases hmem : n ∈ xs
  · rwa [if_pos hmem]
  · rw [if_neg hmem]
    simp [List.nodup_append, h, hmem]

theorem foldTriple_good (p : Part) (tr : Triple) (hp : GoodPart p)
    (hn : GoodName tr.2.1) : GoodPart (foldTriple p tr) := by
  obtain ⟨ty, n, v⟩ := tr
  cases ty with
  | none => exact ⟨Or.inr hn, hp.2.1, hp.2.2.1, hp.2.2.2⟩
  | some t =>
    simp only [foldTriple]
    by_cases h1 : t = cstr "."
    · simp only [h1, if_pos rfl]
      exact ⟨hp.1, goodName_addIfNew n p.classes hn hp.2.1,
        hp.2.2.1, nodup_addIfNew n p.classes hp.2.2.2⟩
    · rw [if_neg h1]
      by_cases h2 : t = cstr "#"
      · simp only [h2, if_pos rfl]
        exact ⟨hp.1, hp.2.1, Or.inr hn, hp.2.2.2⟩
      · rw [if_neg h2]
        by_cases h3 : t = cstr ":"
        · simp only [h3, if_pos rfl]
          exact hp
        · rw [if_neg h3]
          by_cases h4 : t = cstr "::"
          · simp only [h4, if_pos rfl]
            exact hp
          · rw [if_neg h4]
            by_cases h5 : t = cstr "["
            · simp only [h5, if_pos rfl]
              cases v with
              | none => exact hp
              | some v => exact hp
            · rw [if_neg h5]
              exact hp

theorem foldl_foldTriple_good (l : List Triple) :
    ∀ (p : Part), GoodPart p → (∀ tr ∈ l, GoodName tr.2.1) →
      GoodPart (l.foldl foldTriple p) := by
  induction l with
  | nil => intro p hp _; exact hp
  | cons tr rest ih =>
    intro p hp hl
    rw [List.foldl_cons]
    exact ih (foldTriple p tr)
      (foldTriple_good p tr hp (hl tr (by simp)))
      (fun tr' htr' => hl tr' (by simp [htr']))

/-- Every split part has well-formed surviving facets. -/
theorem splitSelector_good (x : Str) : GoodPart (splitSelector x) := by
  unfold splitSelector
  exact foldl_foldTriple_good _ Part.empty
    ⟨Or.inl rfl, by simp [Part.empty], Or.inl rfl, by simp [Part.empty]⟩
    (fun tr htr => scanTriplesF_names _ _ tr htr)

/-- Marker condition on the continuation after one joined component: empty,
or starting with the next component's marker (`.` or `#`). -/
def MarkOk (r : Str) : Prop := r = [] ∨ ∃ t, r = '.' :: t ∨ r = '#' :: t

theorem markOk_head_not_name (r : Str) (h : MarkOk r) :
    ∀ c t, r = c :: t → isNameChar c = false := by
  intro c t hct
  rcases h with h | ⟨t', h | h⟩ <;> rw [hct] at h
  · cases h
  · cases h; rfl
  · cases h; rfl

/-- One regex match at a joined component: an optional single marker, a
well-formed name, and a continuation satisfying `MarkOk`. -/
theorem tryTriple_component (ms w r : Str)
    (hms : ms = [] ∨ ms = ['.'] ∨ ms = ['#'])
    (hw : GoodName w) (hr : MarkOk r) :
    tryTriple (ms ++ w ++ r) =
      some (((if ms = [] then none else some ms), w, none), r) := by
  obtain ⟨c, w', hw_eq⟩ : ∃ c w', w = c :: w' := by
    cases hwx : w with
    | nil => exact absurd hwx hw.1
    | cons a b => exact ⟨a, b, rfl⟩
  have hnc : isNameChar c = true := hw.2 c (by rw [hw_eq]; simp)
  have htype : takeRun isTypeChar (ms ++ (w ++ r)) = (ms, w ++ r) := by
    apply takeRun_of_all
    · intro x hx
      rcases hms with h | h | h <;> subst h <;> simp at hx
      · simp [hx, isTypeChar]
      · simp [hx, isTypeChar]
    · intro x t hxt
      rw [hw_eq] at hxt
      cases hxt
      exact nameChar_not_typeChar c hnc
  have hname : takeRun isNameChar (w ++ r) = (w, r) := by
    apply takeRun_of_all
    · exact fun x hx => hw.2 x hx
    · exact fun x t hxt => markOk_head_not_name r hr x t hxt
  have key : tryTriple (ms ++ (w ++ r)) =
      some (((if ms = [] then none else some ms), w, none), r) := by
    unfold tryTriple
    rw [htype]
    simp only [hname]
    rw [if_neg hw.1]
    rcases hr with h | ⟨t', h | h⟩ <;> subst h <;> rfl
  rw [List.append_assoc]
  exact key

/-- `finditer` over a joined component followed by further components. -/
theorem scanTriples_component (ms w r : Str)
    (hms : ms = [] ∨ ms = ['.'] ∨ ms = ['#'])
    (hw : GoodName w) (hr : MarkOk r) :
    scanTriples (ms ++ w ++ r) =
      (((if ms = [] then none else some ms), w, none) : Triple) :: scanTriples r := by
  have htr := tryTriple_component ms w r hms hw hr
  obtain ⟨c, w', hw_eq⟩ : ∃ c w', w = c :: w' := by
    cases hwx : w with
    | nil => exact absurd hwx hw.1
    | cons a b => exact ⟨a, b, rfl⟩
  have hne : ms ++ w ++ r ≠ [] := by
    rw [hw_eq]
    rcases hms with h | h | h <;> subst h <;> simp
  obtain ⟨d, ds, hds⟩ : ∃ d ds, ms ++ w ++ r = d :: ds := by
    cases hx : ms ++ w ++ r with
    | nil => exact absurd hx hne
    | cons a b => exact ⟨a, b, rfl⟩
  have hrlen : r.length ≤ ds.length := by
    have hlen : (d :: ds).length = (ms ++ w ++ r).length := by rw [hds]
    rw [hw_eq] at hlen
    simp at hlen
    omega
  calc scanTriples (ms ++ w ++ r)
      = scanTriplesF (ds.length + 1) (d :: ds) := by rw [scanTriples, hds]; simp
    _ = (((if ms = [] then none else some ms), w, none) : Triple) :: scanTriplesF ds.length r := by
        rw [scanTriplesF, ← hds, htr]
    _ = _ := by rw [scanTriplesF_ge ds.length r hrlen]

/-- The id component of a stripped join. -/
def idPart (i : Str) : Str := if i ≠ [] then '#' :: i else []

/-- The class components of a stripped join. -/
def classPart (cs : List Str) : Str := (cs.map (fun c => '.' :: c)).flatten

theorem markOk_idPart (i : Str) : MarkOk (idPart i) := by
  unfold idPart
  by_cases h : i = []
  · simp [h, MarkOk]
  · rw [if_pos h]
    exact Or.inr ⟨i, Or.inr rfl⟩

theorem markOk_classPart (cs : List Str) (i : Str) :
    MarkOk (classPart cs ++ idPart i) := by
  cases cs with
  | nil => simpa [classPart] using markOk_idPart i
  | cons c cs' =>
    right
    exact ⟨c ++ (classPart cs' ++ idPart i), Or.inl (by simp [classPart])⟩

theorem scanTriples_idPart (i : Str) (hi : i = [] ∨ GoodName i) :
    scanTriples (idPart i) =
      if i = [] then [] else [((some ['#'], i, none) : Triple)] := by
  rcases hi with h | h
  · simp [h, idPart, scanTriples, scanTriplesF]
  · rw [idPart, if_pos h.1, if_neg h.1]
    have := scanTriples_component ['#'] i [] (Or.inr (Or.inr rfl)) h (Or.inl rfl)
    simpa using this

theorem scanTriples_classPart (cs : List Str) (i : Str)
    (hcs : ∀ c ∈ cs, GoodName c) (_hi : i = [] ∨ GoodName i) :
    scanTriples (classPart cs ++ idPart i) =
      cs.map (fun c => ((some ['.'], c, none) : Triple)) ++ scanTriples (idPart i) := by
  induction cs with
  | nil => simp [classPart]
  | cons c cs' ih =>
    have hgc : GoodName c := hcs c (by simp)
    have heq : classPart (c :: cs') ++ idPart i
        = ['.'] ++ c ++ (classPart cs' ++ idPart i) := by
      simp [classPart]
    rw [heq, scanTriples_component ['.'] c (classPart cs' ++ idPart i)
      (Or.inr (Or.inl rfl)) hgc (markOk_classPart cs' i)]
    rw [ih (fun c' hc' => hcs c' (by simp [hc']))]
    simp

theorem foldl_classTriples (cs : List Str) :
    ∀ (p : Part), cs.Nodup → (∀ c ∈ cs, c ∉ p.classes) →
      (cs.map (fun c => ((some ['.'], c, none) : Triple))).foldl foldTriple p
        = { p with classes := p.classes ++ cs } := by
  induction cs with
  | nil => intro p _ _; simp
  | cons c cs' ih =>
    intro p hnd hdisj
    rw [List.map_cons, List.foldl_cons]
    have hstep : foldTriple p ((some ['.'], c, none) : Triple)
        = { p with classes := p.classes ++ [c] } := by
      show { p with classes := addIfNew c p.classes } = _
      rw [addIfNew, if_neg (hdisj c (by simp))]
    rw [hstep]
    rw [ih { p with classes := p.classes ++ [c] } (by simpa using hnd.of_cons) ?_]
    · simp
    · intro c' hc'
      simp only [List.mem_append, List.mem_singleton]
      rintro (h1 | h2)
      · exact hdisj c' (by simp [hc']) h1
      · subst h2
        exact (List.nodup_cons.1 hnd).1 hc'

/-- Splitting the join of a stripped, well-formed part recovers the part
(with an empty type printed, and hence re-read, as `*`). -/
theorem splitSelector_join_stripped (p : Part) (hg : GoodPart p) :
    splitSelector (joinSelectorParts (eraseFacets trimStrip p)) = stripPart p := by
  have herase : eraseFacets trimStrip p = ⟨p.type, p.classes, p.id, [], [], [], []⟩ := rfl
  have hjoin : joinSelectorParts (⟨p.type, p.classes, p.id, [], [], [], []⟩ : Part)
      = (if p.type ≠ [] then p.type else cstr "*") ++ (classPart p.classes ++ idPart p.id) := by
    simp [joinSelectorParts, classPart, idPart]
  have hgt : GoodName (if p.type ≠ [] then p.type else cstr "*") := by
    by_cases h : p.type = []
    · rw [if_neg (by simpa using h)]
      exact ⟨by decide, by decide⟩
    · rw [if_pos h]
      rcases hg.1 with h' | h'
      · exact absurd h' h
      · exact h'
  have hscan : scanTriples (joinSelectorParts (eraseFacets trimStrip p))
      = ((none, (if p.type ≠ [] then p.type else cstr "*"), none) : Triple)
        :: (p.classes.map (fun c => ((some ['.'], c, none) : Triple))
            ++ scanTriples (idPart p.id)) := by
    rw [herase, hjoin]
    have := scanTriples_component [] (if p.type ≠ [] then p.type else cstr "*")
      (classPart p.classes ++ idPart p.id) (Or.inl rfl) hgt
      (markOk_classPart p.classes p.id)
    simp only [List.nil_append, if_true] at this
    rw [this, scanTriples_classPart p.classes p.id hg.2.1 hg.2.2.1]
  rw [splitSelector, hscan]
  rw [List.foldl_cons]
  have hstep1 : foldTriple Part.empty
      ((none, (if p.type ≠ [] then p.type else cstr "*"), none) : Triple)
      = (⟨(if p.type ≠ [] then p.type else cstr "*"), [], [], [], [], [], []⟩ : Part) := rfl
  rw [hstep1, List.foldl_append]
  rw [foldl_classTriples p.classes _ hg.2.2.2 (by intro c _; simp)]
  rcases hg.2.2.1 with hid | hid
  · rw [scanTriples_idPart p.id (Or.inl hid)]
    rw [if_pos hid]
    simp only [List.foldl_nil]
    unfold stripPart
    rw [hid]
    by_cases h : p.type = [] <;> simp [h]
  · rw [scanTriples_idPart p.id (Or.inr hid)]
    rw [if_neg hid.1]
    simp only [List.foldl_cons, List.foldl_nil]
    show (⟨_, _, p.id, [], [], [], []⟩ : Part) = stripPart p
    unfold stripPart
    by_cases h : p.type = [] <;> simp [h]

/-- The join of a trim-stripped part, in components. -/
theorem join_erased (p : Part) :
    joinSelectorParts (eraseFacets trimStrip p)
      = (if p.type ≠ [] then p.type else cstr "*") ++ (classPart p.classes ++ idPart p.id) := by
  show joinSelectorParts (⟨p.type, p.classes, p.id, [], [], [], []⟩ : Part) = _
  simp [joinSelectorParts, classPart, idPart]

/-- Splitting a stripped selector yields the stripped decomposition of the
original. -/
theorem splitSelector_stripOne (x : Str) :
    splitSelector (stripOne x) = stripPart (splitSelector x) :=
  splitSelector_join_stripped (splitSelector x) (splitSelector_good x)

/-- Stripping a selector of its volatile facets is idempotent. -/
theorem stripOne_idem (x : Str) : stripOne (stripOne x) = stripOne x := by
  unfold stripOne
  rw [splitSelector_join_stripped (splitSelector x) (splitSelector_good x)]
  rw [join_erased, join_erased]
  by_cases h : (splitSelector x).type = [] <;>
    simp [stripPart, h, show (cstr "*" : Str) ≠ [] from by decide]

/-- On a well-formed chain entry, stripping preserves being (or not being)
the combinator string `>`. -/
theorem stripOne_gt (x : Str) (h : WFSel x = true) :
    stripOne x = cstr ">" ↔ x = cstr ">" := by
  constructor
  · intro hso
    rw [WFSel, Bool.or_eq_true, decide_eq_true_eq, decide_eq_true_eq] at h
    rcases h with h | h
    · exact h
    · exfalso
      apply h
      rw [stripOne, join_erased, show (cstr ">" : Str) = ['>'] from rfl] at hso
      by_cases h0 : (splitSelector x).type = []
      · rw [if_neg (by simpa using h0), show (cstr "*" : Str) = ['*'] from rfl,
          List.cons_append] at hso
        exact absurd (List.cons.inj hso).1 (by decide)
      · rw [if_pos h0] at hso
        rcases htt : (splitSelector x).type with _ | ⟨a, t⟩
        · exact absurd htt h0
        · rw [htt, List.cons_append] at hso
          obtain ⟨ha, hrest⟩ := List.cons.inj hso
          rcases List.append_eq_nil.1 hrest with ⟨ht0, -⟩
          rw [ha, ht0]
          rfl
  · intro hx
    rw [hx]
    decide

/-- The names set of a stripped part, in components. -/
theorem partNames_stripPart (p : Part) :
    partNames (stripPart p)
      = p.classes
        ++ (if p.type ≠ cstr "*" ∧ p.type ≠ cstr ">" ∧ p.type ≠ [] then [p.type] else [])
        ++ (if p.id ≠ [] then [p.id] else []) := by
  show partNames ⟨(if p.type = [] then cstr "*" else p.type), p.classes, p.id, [], [], [], []⟩ = _
  unfold partNames
  by_cases ht : p.type = []
  · rw [if_pos ht]
    simp [ht]
  · rw [if_neg ht]
    simp [ht]

/-- Names of the stripped parts of a chain. -/
def stripNames (ps : List Part) : List Str :=
  (ps.map (fun p => partNames (stripPart p))).flatten

theorem stripNames_cons (p : Part) (ps : List Part) :
    stripNames (p :: ps) = partNames (stripPart p) ++ stripNames ps := rfl

/-- An exact per-part match carries every surviving (non-`*`, non-`>`)
style name of the stripped style part into the stripped element part. -/
theorem matchParts_names (ap bp : Part) (h : matchParts ap bp = true) :
    ∀ n ∈ partNames (stripPart bp), n ≠ cstr "*" → n ≠ cstr ">" →
      n ∈ partNames (stripPart ap) := by
  intro n hn hstar hgtn
  simp only [matchParts, Bool.and_eq_true, Bool.or_eq_true, decide_eq_true_eq,
    List.all_eq_true] at h
  obtain ⟨⟨⟨⟨⟨⟨htype, hid⟩, hcls⟩, -⟩, -⟩, -⟩, -⟩ := h
  rw [partNames_stripPart] at hn
  rw [partNames_stripPart]
  rcases List.mem_append.1 hn with hn | hn
  · rcases List.mem_append.1 hn with hn | hn
    · exact List.mem_append.2 (Or.inl (List.mem_append.2 (Or.inl
        (by simpa using hcls n hn))))
    · by_cases hb : bp.type ≠ cstr "*" ∧ bp.type ≠ cstr ">" ∧ bp.type ≠ []
      · rw [if_pos hb, List.mem_singleton] at hn
        subst hn
        rcases htype with ⟨hbstar, _⟩ | heq
        · exact absurd hbstar hb.1
        · refine List.mem_append.2 (Or.inl (List.mem_append.2 (Or.inr ?_)))
          rw [heq, if_pos ⟨hb.1, hb.2.1, hb.2.2⟩]
          exact List.mem_singleton.2 rfl
      · rw [if_neg hb] at hn
        exact absurd hn (List.not_mem_nil n)
  · by_cases hb : bp.id ≠ []
    · rw [if_pos hb, List.mem_singleton] at hn
      subst hn
      rcases hid with hid0 | hideq
      · exact absurd hid0 hb
      · refine List.mem_append.2 (Or.inr ?_)
        rw [hideq, if_pos hb]
        exact List.mem_singleton.2 rfl
    · rw [if_neg hb] at hn
      exact absurd hn (List.not_mem_nil n)

/-- A successful exact match carries every surviving stripped style name of
the style chain into the stripped element names (the element side only ever
shrinks along the run, so coverage holds at every suffix). -/
theorem msel_coverage : ∀ (fuel : Nat) (se : List Str) (pe : List Part) (ss : List Str)
    (ps : List Part) (cont : Bool), ps = ss.map splitSelector →
    mselF fuel se pe ss ps cont = true →
    ∀ n ∈ stripNames ps, n ≠ cstr "*" → n ≠ cstr ">" → n ∈ stripNames pe := by
  intro fuel
  induction fuel with
  | zero =>
    intro se pe ss ps cont hps h
    simp [mselF] at h
  | succ fuel ih =>
    intro se pe ss ps cont hps h n hn hstar hgtn
    cases ss with
    | nil =>
      subst hps
      simp [stripNames] at hn
    | cons ss0 ssR =>
      subst hps
      cases se with
      | nil => simp [mselF] at h
      | cons se0 seR =>
        cases pe with
        | nil => simp [mselF] at h
        | cons pe0 peR =>
          simp only [List.map_cons] at hn h
          rw [stripNames_cons] at hn
          simp only [mselF] at h
          by_cases hgtb : ss0 = cstr ">"
          · rw [if_pos hgtb] at h
            rcases List.mem_append.1 hn with hn | hn
            · rw [hgtb] at hn
              have hhead : partNames (stripPart (splitSelector (cstr ">"))) = [] := by decide
              rw [hhead] at hn
              exact absurd hn (List.not_mem_nil n)
            · exact ih (se0 :: seR) (pe0 :: peR) ssR _ false rfl h n hn hstar hgtn
          · rw [if_neg hgtb] at h
            by_cases happr :
                matchApprox (pe0 :: peR) (splitSelector ss0 :: ssR.map splitSelector) (!cont)
                  = true
            · rw [if_neg (by simp [happr])] at h
              by_cases hc1 : (matchParts pe0 (splitSelector ss0)
                  && mselF fuel seR peR ssR (ssR.map splitSelector) true) = true
              · rw [Bool.and_eq_true] at hc1
                obtain ⟨hmp, hrec⟩ := hc1
                rcases List.mem_append.1 hn with hn | hn
                · have := matchParts_names pe0 (splitSelector ss0) hmp n hn hstar hgtn
                  rw [stripNames_cons]
                  exact List.mem_append.2 (Or.inl this)
                · have := ih seR peR ssR _ true rfl hrec n hn hstar hgtn
                  rw [stripNames_cons]
                  exact List.mem_append.2 (Or.inr this)
              · rw [if_neg hc1] at h
                rcases Bool.eq_false_or_eq_true cont with hcont | hcont
                · rw [hcont] at h
                  have h' : mselF fuel seR peR (ss0 :: ssR)
                      (splitSelector ss0 :: ssR.map splitSelector) true = true := by
                    simpa using h
                  have := ih seR peR (ss0 :: ssR) _ true (by simp) h' n (by
                    simpa [stripNames_cons] using hn) hstar hgtn
                  rw [stripNames_cons]
                  exact List.mem_append.2 (Or.inr this)
                · rw [hcont] at h
                  simp at h
            · have : (!matchApprox (pe0 :: peR)
                  (splitSelector ss0 :: ssR.map splitSelector) (!cont)) = true := by
                simp only [Bool.not_eq_true'] at happr ⊢
                exact Bool.eq_false_iff.2 happr
              rw [if_pos this] at h
              exact absurd h (by simp)

/-- Per-part matching survives stripping both sides. -/
theorem matchParts_strip_mono (ap bp : Part) (h : matchParts ap bp = true) :
    matchParts (stripPart ap) (stripPart bp) = true := by
  simp only [matchParts, stripPart, Bool.and_eq_true, Bool.or_eq_true, decide_eq_true_eq,
    List.all_eq_true] at h ⊢
  obtain ⟨⟨⟨⟨⟨⟨htype, hid⟩, hcls⟩, -⟩, -⟩, -⟩, -⟩ := h
  refine ⟨⟨⟨⟨⟨⟨?_, hid⟩, hcls⟩, by simp⟩, by simp⟩, by simp⟩, by simp⟩
  rcases htype with ⟨hb, ha⟩ | heq
  · left
    constructor
    · rw [if_neg (show ¬bp.type = [] by rw [hb]; decide)]
      exact hb
    · rw [if_neg ha]
      exact ha
  · right
    rw [heq]

/-- The approximate pre-filter survives stripping both sides, given names
coverage of the stripped chains. -/
theorem matchApprox_strip (pe ps : List Part) (ce : Bool)
    (happr : matchApprox pe ps ce = true)
    (hcov : ∀ n ∈ stripNames ps, n ≠ cstr "*" → n ≠ cstr ">" → n ∈ stripNames pe) :
    matchApprox (pe.map stripPart) (ps.map stripPart) ce = true := by
  simp only [matchApprox, Bool.and_eq_true] at happr ⊢
  obtain ⟨hend, -⟩ := happr
  constructor
  · cases ce with
    | false => simp
    | true =>
      cases pe with
      | nil => simp
      | cons pe0 peR =>
        cases ps with
        | nil => simp
        | cons ps0 psR =>
          simp only [List.map_cons, eq_self_iff_true, if_true] at hend ⊢
          simp only [Bool.and_eq_true, Bool.or_eq_true, decide_eq_true_eq] at hend ⊢
          obtain ⟨htype, hid⟩ := hend
          constructor
          · show ((stripPart ps0).type = cstr "*" ∨ (stripPart ps0).type = cstr ">")
              ∨ (stripPart pe0).type = (stripPart ps0).type
            simp only [stripPart]
            rcases htype with (hb | hb) | hb
            · exact Or.inl (Or.inl (by rw [if_neg (show ¬ps0.type = [] by rw [hb]; decide)]; exact hb))
            · exact Or.inl (Or.inr (by rw [if_neg (show ¬ps0.type = [] by rw [hb]; decide)]; exact hb))
            · exact Or.inr (by rw [hb])
          · show (stripPart ps0).id = [] ∨ (stripPart pe0).id = (stripPart ps0).id
            simpa only [stripPart] using hid
  · simp only [List.all_eq_true, List.map_map]
    intro n hnmem
    rw [List.mem_filter] at hnmem
    obtain ⟨hn, hcond⟩ := hnmem
    rw [Bool.and_eq_true, decide_eq_true_eq, decide_eq_true_eq] at hcond
    refine decide_eq_true ?_
    have := hcov n (by simpa [stripNames, List.map_map, Function.comp] using hn)
      hcond.1 hcond.2
    simpa [stripNames, List.map_map, Function.comp] using this

/-- Exact matching of a well-formed style chain survives stripping both
chains (monotonicity of the matcher under facet stripping). -/
theorem msel_strip_mono : ∀ (fuel : Nat) (se : List Str) (pe : List Part) (ss : List Str)
    (ps : List Part) (cont : Bool), ps = ss.map splitSelector → ss.all WFSel = true →
    mselF fuel se pe ss ps cont = true →
    mselF fuel (se.map stripOne) (pe.map stripPart) (ss.map stripOne) (ps.map stripPart)
      cont = true := by
  intro fuel
  induction fuel with
  | zero =>
    intro se pe ss ps cont hps hwf h
    simp [mselF] at h
  | succ fuel ih =>
    intro se pe ss ps cont hps hwf h
    cases ss with
    | nil =>
      subst hps
      simp [mselF]
    | cons ss0 ssR =>
      subst hps
      rw [List.all_cons, Bool.and_eq_true] at hwf
      obtain ⟨hwf0, hwfR⟩ := hwf
      cases se with
      | nil => simp [mselF] at h
      | cons se0 seR =>
        cases pe with
        | nil => simp [mselF] at h
        | cons pe0 peR =>
          have h0 := h
          simp only [List.map_cons] at h ⊢
          simp only [mselF] at h ⊢
          by_cases hgtb : ss0 = cstr ">"
          · rw [if_pos hgtb] at h
            rw [if_pos ((stripOne_gt ss0 hwf0).2 hgtb)]
            exact ih (se0 :: seR) (pe0 :: peR) ssR _ false rfl hwfR h
          · rw [if_neg hgtb] at h
            rw [if_neg (fun hc => hgtb ((stripOne_gt ss0 hwf0).1 hc))]
            by_cases happr :
                matchApprox (pe0 :: peR) (splitSelector ss0 :: ssR.map splitSelector) (!cont)
                  = true
            · rw [if_neg (by simp [happr])] at h
              have hcov := msel_coverage (fuel + 1) (se0 :: seR) (pe0 :: peR) (ss0 :: ssR)
                _ cont rfl h0
              have happr' := matchApprox_strip (pe0 :: peR)
                (splitSelector ss0 :: ssR.map splitSelector) (!cont) happr (by
                  intro n hn h1 h2
                  exact hcov n (by simpa [List.map_cons] using hn) h1 h2)
              simp only [List.map_cons] at happr'
              rw [if_neg (by
                intro hc
                rw [happr'] at hc
                exact absurd hc (by decide))]
              by_cases hc1 : (matchParts pe0 (splitSelector ss0)
                  && mselF fuel seR peR ssR (ssR.map splitSelector) true) = true
              · rw [Bool.and_eq_true] at hc1
                obtain ⟨hmp, hrec⟩ := hc1
                rw [if_pos (by
                  rw [Bool.and_eq_true]
                  exact ⟨matchParts_strip_mono pe0 (splitSelector ss0) hmp,
                    ih seR peR ssR _ true rfl hwfR hrec⟩)]
              · rw [if_neg hc1] at h
                rcases Bool.eq_false_or_eq_true cont with hcont | hcont
                · subst hcont
                  have h' : mselF fuel seR peR (ss0 :: ssR)
                      (splitSelector ss0 :: ssR.map splitSelector) true = true := by
                    simpa using h
                  have hrec' := ih seR peR (ss0 :: ssR) _ true (by simp)
                    (by rw [List.all_cons, Bool.and_eq_true]; exact ⟨hwf0, hwfR⟩) h'
                  simp only [List.map_cons] at hrec'
                  by_cases hc1' : (matchParts (stripPart pe0) (stripPart (splitSelector ss0))
                      && mselF fuel (seR.map stripOne) (peR.map stripPart)
                        (ssR.map stripOne) ((ssR.map splitSelector).map stripPart) true)
                      = true
                  · rw [if_pos hc1']
                  · rw [if_neg hc1']
                    simpa using hrec'
                · subst hcont
                  simp at h
            · have : (!matchApprox (pe0 :: peR)
                  (splitSelector ss0 :: ssR.map splitSelector) (!cont)) = true := by
                simp only [Bool.not_eq_true'] at happr ⊢
                exact Bool.eq_false_iff.2 happr
              rw [if_pos this] at h
              exact absurd h (by simp)

/-- `match_selector` monotonicity at the chain level: an exact match (no
stripping) of a well-formed style chain implies a match of the trim-stripped
element chain under the trim strip set. -/
theorem matchSelector_strip_mono (chainE selStyle : List Str)
    (hwf : WFChain selStyle = true)
    (h : matchSelector chainE selStyle [] = true) :
    matchSelector (stripSelectorParts chainE trimStrip) selStyle trimStrip = true := by
  have hsp : ∀ X : List Str, stripSelectorParts X trimStrip = X.map stripOne := by
    intro X
    rw [stripSelectorParts, if_neg (by decide)]
    rfl
  have hid0 : ∀ X : List Str, stripSelectorParts X ([] : List String) = X := by
    intro X
    rw [stripSelectorParts, if_pos rfl]
  simp only [matchSelector] at h ⊢
  rw [hid0, hid0] at h
  simp only [hsp]
  have e0 : (chainE.map stripOne).map stripOne = chainE.map stripOne := by
    rw [List.map_map]
    exact List.map_congr_left (fun x _ => stripOne_idem x)
  have e1 : (chainE.map stripOne).map splitSelector
      = (chainE.map splitSelector).map stripPart := by
    rw [List.map_map, List.map_map]
    exact List.map_congr_left (fun x _ => splitSelector_stripOne x)
  have e2 : (selStyle.map stripOne).map splitSelector
      = (selStyle.map splitSelector).map stripPart := by
    rw [List.map_map, List.map_map]
    exact List.map_congr_left (fun x _ => splitSelector_stripOne x)
  rw [e0, e1, e2]
  simp only [mselRev] at h ⊢
  simp only [List.length_reverse, List.length_map] at h ⊢
  have hwf' : selStyle.reverse.all WFSel = true := by
    rw [List.all_eq_true]
    rw [WFChain, List.all_eq_true] at hwf
    intro x hx
    exact hwf x (List.mem_reverse.1 hx)
  have hmain := msel_strip_mono (chainE.length + selStyle.length + 1) chainE.reverse
    ((chainE.map splitSelector).reverse) selStyle.reverse
    ((selStyle.map splitSelector).reverse) false (List.map_reverse _ _).symm hwf' h
  simpa only [List.map_reverse] using hmain

end UIStyle

namespace UIStyle

/-! ## Claim theorems -/

/-- C1: the claim that the trie-indexed path (`optimize` +
`get_matching_rules`) and the non-indexed load-order path (`match_selector`
over every rule in load order, the commented-out reference body of
`get_decllist`) always produce identical computed (property, value) sets is
refuted by the code: `get_matching_rules` sorts the matched rules by
specificity tuple, so an earlier, more specific rule's declarations are
applied *after* a later, less specific one.  For the stylesheet
`b#i {color:red}` (uid 1), `b {color:blue}` (uid 2) and the chain `[b#i]`,
the indexed path computes `color=red` while the load-order path computes
`color=blue`. -/
theorem c1_indexed_vs_recursive_divergence :
    (mapGet (cstr "color")
      (computeStyle (some [cstr "b#i"])
        [some { rules :=
                  [⟨1, [[cstr "b#i"]], [⟨cstr "color", .one (.color (cstr "red"))⟩]⟩,
                   ⟨2, [[cstr "b"]], [⟨cstr "color", .one (.color (cstr "blue"))⟩]⟩],
                inline := false }])
      = some (.one (.color (cstr "red"))))
    ∧ (mapGet (cstr "color")
        (computeStyleLoadOrder (some [cstr "b#i"])
          [some { rules :=
                    [⟨1, [[cstr "b#i"]], [⟨cstr "color", .one (.color (cstr "red"))⟩]⟩,
                     ⟨2, [[cstr "b"]], [⟨cstr "color", .one (.color (cstr "blue"))⟩]⟩],
                  inline := false }])
        = some (.one (.color (cstr "blue")))) := by
  constructor
  · decide
  · decide

/-- C2: the claim that `compute_style` always returns the *later* rule's
value when two matching rules set the same longhand property is refuted:
with `p#z {width:1}` (uid 1, earlier) and `p {width:2}` (uid 2, later), both
matching `[p#z]`, the specificity sort in `get_matching_rules` puts the
earlier rule's declarations last, so `compute_style` returns the earlier
rule's value 1, not the later rule's 2. -/
theorem c2_cascade_specificity_overrides_load_order :
    (mapGet (cstr "width")
      (computeStyle (some [cstr "p#z"])
        [some { rules :=
                  [⟨1, [[cstr "p#z"]], [⟨cstr "width", .one (.numU (cstr "1") [])⟩]⟩,
                   ⟨2, [[cstr "p"]], [⟨cstr "width", .one (.numU (cstr "2") [])⟩]⟩],
                inline := false }])
      = some (.one (.numU (cstr "1") [])))
    ∧ (.one (.numU (cstr "1") []) : DeclValue) ≠ .one (.numU (cstr "2") []) := by
  constructor
  · decide
  · decide

/-- C3: the claim that any mutation of `rules` invalidates *every* derived
cache before the next query is refuted by `clear_cache`, which resets only
the declaration-list cache (and the global pure-function caches): the built
trie (`self._trie`) and the match cache (`self._matches_cache`) survive
`append`.  Concretely: load `q {color:red}` (uid 1), query the chain `[q]`
(this builds the trie) and `has_matches` on `[r]` (this caches `False`);
then `append` a styling with `q, r {color:blue}` (uid 2).  The rule list
now holds both rules, but the next `get_decllist([q])` still answers from
the pre-mutation trie (missing `color:blue`), unlike a fresh state over the
same rules, and `_has_matches([r])` still answers the cached pre-mutation
`False` although the appended rule matches `[r]`. -/
theorem c3_append_leaves_stale_trie_and_match_cache :
    (let A : RuleSet := ⟨1, [[cstr "q"]], [⟨cstr "color", .one (.color (cstr "red"))⟩]⟩
     let B : RuleSet := ⟨2, [[cstr "q"], [cstr "r"]], [⟨cstr "color", .one (.color (cstr "blue"))⟩]⟩
     let s1 := (getDecllistS (freshS [A]) [cstr "q"]).2
     let s1' := (hasMatchesS s1 [cstr "r"]).2
     let s2 := appendS s1' (freshS [B])
     s2.rules = [A, B]
     ∧ (getDecllistS s2 [cstr "q"]).1 = [⟨cstr "color", .one (.color (cstr "red"))⟩]
     ∧ (getDecllistS (freshS s2.rules) [cstr "q"]).1
         = [⟨cstr "color", .one (.color (cstr "red"))⟩,
            ⟨cstr "color", .one (.color (cstr "blue"))⟩]
     ∧ (hasMatchesS s2 [cstr "r"]).1 = false
     ∧ s2.rules.any (fun r => r.matchSel [cstr "r"] []) = true) := by
  exact ⟨rfl, rfl, rfl, rfl, rfl⟩

/-- C4 (counterexample): a `load_from_text` call that raises a
`SyntaxError` does *not* leave `rules` at its pre-call value: the method
does `self.rules = []` at entry and appends each rule set as it parses, so
a failed load replaces previously accumulated rules with the prefix parsed
from the new text.  Loading `b{color:red;}c{` (which fails after one rule)
into a styling whose rules were `[a-rule]` leaves `rules` holding the new
`b` rule, not the prior rule. -/
theorem c4_failed_load_discards_prior_rules :
    (let priorRule : RuleSet := ⟨9, [[cstr "a"]], [⟨cstr "display", .one (.str (cstr "none"))⟩]⟩
     let r := loadFromTextS (freshS [priorRule]) (cstr "b\x7bcolor:red;\x7dc\x7b")
     r.2 = some ()
     ∧ r.1.rules ≠ [priorRule]
     ∧ r.1.rules = [⟨1, [[cstr "b"]], [⟨cstr "color", .one (.color (cstr "red"))⟩]⟩]) := by
  refine ⟨rfl, ?_, rfl⟩
  decide

/-- C4 (amended): after `load_from_text`, successful or not, both the
resulting rule list and the error outcome are functions of the text alone —
the pre-call rules are discarded at entry, and on a `SyntaxError` the rule
list holds exactly the rule sets parsed from the new text before the
error. -/
theorem c4_load_result_depends_only_on_text (s1 s2 : StylingS) (t : Str) :
    (loadFromTextS s1 t).1.rules = (loadFromTextS s2 t).1.rules
    ∧ (loadFromTextS s1 t).2 = (loadFromTextS s2 t).2 := by
  unfold loadFromTextS
  by_cases h : t = []
  · simp [h, clearCacheS]
  · simp only [h, if_neg, ite_false]
    cases htk : tokenize t <;> simp [clearCacheS]

/-- C6: `_join_selector_parts` is not the inverse of `_split_selector` on
the pseudoelement facet: splitting `*::before` yields pseudoelement
`before`, but joining emits `*:before` (single colon, source line 428), and
re-splitting that classifies `before` as a *pseudoclass*. -/
theorem c6_join_split_pseudoelement_breaks_roundtrip :
    (splitSelector (cstr "*::before")).pseudoelements = [cstr "before"]
    ∧ joinSelectorParts (splitSelector (cstr "*::before")) = cstr "*:before"
    ∧ (splitSelector (joinSelectorParts (splitSelector (cstr "*::before")))).pseudoelements = []
    ∧ (splitSelector (joinSelectorParts (splitSelector (cstr "*::before")))).pseudoclasses
        = [cstr "before"]
    ∧ splitSelector (joinSelectorParts (splitSelector (cstr "*::before")))
        ≠ splitSelector (cstr "*::before") := by
  refine ⟨rfl, rfl, rfl, rfl, ?_⟩
  decide

/-- C7 (counterexample): the claim says the type facet matches whenever the
style type is `*` (and that a text/anonymous node, whose element type is
empty, matches a rule whose type is `*`).  In the code the `*` style type
additionally requires a *nonempty* element type, so a text node does not
match `*`, neither at the part level nor through `match_selector`. -/
theorem c7_star_type_rejects_text_node :
    matchParts ⟨[], [], [], [], [], [], []⟩ ⟨cstr "*", [], [], [], [], [], []⟩ = false
    ∧ matchSelector [([] : Str)] [cstr "*"] [] = false := by
  exact ⟨rfl, rfl⟩

/-- C7 (amended): the exact type-facet semantics of
`_match_selector_parts`: a style part `*` (with no other requirements)
matches exactly the element parts with nonempty type, and a text/anonymous
element part (empty type) matches a bare style type exactly when that style
type is itself empty — so text nodes never match an explicit-type or `*`
rule. -/
theorem c7_type_facet_exact_semantics :
    (∀ ap : Part, matchParts ap ⟨cstr "*", [], [], [], [], [], []⟩ = decide (ap.type ≠ []))
    ∧ (∀ t : Str, matchParts ⟨[], [], [], [], [], [], []⟩ ⟨t, [], [], [], [], [], []⟩
        = decide (t = [])) := by
  constructor
  · intro ap
    by_cases h : ap.type = [] <;> simp [matchParts, h, cstr]
  · intro t
    by_cases h : t = []
    · simp [matchParts, h, cstr]
    · by_cases h2 : t = cstr "*"
      · subst h2; simp [matchParts, cstr]
      · simp [matchParts, h, h2, cstr]

/-- C8 (counterexample): the numeric token pattern
`(?P<num>-?((\d*[.]\d+)|\d+))(?P<unit>px|vw|vh|pt|%|)` does *not* reject
numerals beginning with a bare decimal point: `\d*` admits an empty integer
part, so `.014` (and `-.014`, `.014px`) are matched in full. -/
theorem c8_num_pattern_accepts_bare_point :
    numTokenMatches (cstr ".014") = true
    ∧ numTokenMatches (cstr "-.014") = true
    ∧ numTokenMatches (cstr ".014px") = true
    ∧ numTokenMatches (cstr "0.014") = true := by
  exact ⟨rfl, rfl, rfl, rfl⟩

/-- C8 (amended): the numeric token pattern accepts exactly the optionally
signed decimals with an optional unit suffix from `{px, vw, vh, pt, %, ""}`
whose numeral body is either a nonempty digit string or a *possibly empty*
digit string followed by `.` and a nonempty digit string — so a bare
leading decimal point is accepted by the pattern itself (`.014` as well as
`0.014`). -/
theorem c8_num_pattern_characterization (s : Str) :
    numTokenMatches s = true ↔
      ∃ sign core unit : Str, s = sign ++ core ++ unit
        ∧ (sign = [] ∨ sign = cstr "-")
        ∧ unit ∈ numUnits
        ∧ ((core ≠ [] ∧ core.all Char.isDigit = true)
            ∨ ∃ a b : Str, core = a ++ '.' :: b ∧ a.all Char.isDigit = true
                ∧ b ≠ [] ∧ b.all Char.isDigit = true) := by
  constructor
  · intro h
    rw [numTokenMatches, List.any_eq_true] at h
    obtain ⟨u, hu, hf⟩ := h
    rw [Bool.and_eq_true] at hf
    obtain ⟨x, hx⟩ := (hasSuffix_iff s u).1 hf.1
    have hnt : numTail s u = x := by rw [hx]; exact numTail_append x u
    have hsig := hf.2
    rw [hnt] at hsig
    obtain ⟨sign, core, hxsc, hsign, hcore⟩ := (numSigned_iff x).1 hsig
    refine ⟨sign, core, u, ?_, hsign, hu, (numeralCore_iff core).1 hcore⟩
    rw [hx, hxsc, List.append_assoc]
  · rintro ⟨sign, core, unit, rfl, hsign, hunit, hcore⟩
    rw [numTokenMatches, List.any_eq_true]
    refine ⟨unit, hunit, ?_⟩
    rw [Bool.and_eq_true]
    have hassoc : sign ++ core ++ unit = (sign ++ core) ++ unit := by
      rw [List.append_assoc]
    constructor
    · exact (hasSuffix_iff _ unit).2 ⟨sign ++ core, hassoc⟩
    · have hnt : numTail (sign ++ core ++ unit) unit = sign ++ core := by
        rw [hassoc]; exact numTail_append _ unit
      rw [hnt]
      exact (numSigned_iff _).2 ⟨sign, core, rfl, hsign, (numeralCore_iff core).2 hcore⟩

/-- C9: declaration expansion treats width and height asymmetrically: a
final `height: v` declaration sets `height`, `min-height` and `max-height`
to `v` in the computed map, while a final `width: v` declaration sets only
`width` and leaves `min-width`/`max-width` exactly as the preceding
declarations left them.  (The hypothesis excludes the literal `initial`,
which the final filter of `_expand_declarations` removes from the map.) -/
theorem c9_height_width_asymmetry (ds : List Decl) (v : DeclValue)
    (hv : v ≠ .one (.str (cstr "initial"))) :
    (mapGet (cstr "height") (expandDeclarations (ds ++ [⟨cstr "height", v⟩])) = some v
      ∧ mapGet (cstr "min-height") (expandDeclarations (ds ++ [⟨cstr "height", v⟩])) = some v
      ∧ mapGet (cstr "max-height") (expandDeclarations (ds ++ [⟨cstr "height", v⟩])) = some v)
    ∧ (mapGet (cstr "width") (expandDeclarations (ds ++ [⟨cstr "width", v⟩])) = some v
      ∧ mapGet (cstr "min-width") (expandDeclarations (ds ++ [⟨cstr "width", v⟩]))
          = mapGet (cstr "min-width") (expandDeclarations ds)
      ∧ mapGet (cstr "max-width") (expandDeclarations (ds ++ [⟨cstr "width", v⟩]))
          = mapGet (cstr "max-width") (expandDeclarations ds)) := by
  have hP : (decide (v ≠ DeclValue.one (.str (cstr "initial")))) = true := by
    simpa using hv
  have hfoldh : (ds ++ [(⟨cstr "height", v⟩ : Decl)]).foldl expandStep []
      = expandStep (ds.foldl expandStep []) ⟨cstr "height", v⟩ := by
    rw [List.foldl_append]; rfl
  have hfoldw : (ds ++ [(⟨cstr "width", v⟩ : Decl)]).foldl expandStep []
      = expandStep (ds.foldl expandStep []) ⟨cstr "width", v⟩ := by
    rw [List.foldl_append]; rfl
  have hstep_h : ∀ m : StyleMap, expandStep m ⟨cstr "height", v⟩
      = mapSet (cstr "max-height") v (mapSet (cstr "min-height") v (mapSet (cstr "height") v m)) :=
    fun m => rfl
  have hstep_w : ∀ m : StyleMap, expandStep m ⟨cstr "width", v⟩
      = mapSet (cstr "width") v m := fun m => rfl
  set M := ds.foldl expandStep [] with hM
  have hPfun : ∀ w : DeclValue,
      (fun w => decide (w ≠ DeclValue.one (Value.str (cstr "initial")))) w = true ↔
        w ≠ DeclValue.one (Value.str (cstr "initial")) := by
    intro w; simp
  refine ⟨⟨?_, ?_, ?_⟩, ?_, ?_, ?_⟩
  · unfold expandDeclarations
    rw [hfoldh, hstep_h]
    exact mapGet_filter_of_true
      (fun w => decide (w ≠ DeclValue.one (Value.str (cstr "initial"))))
      (cstr "height") v _
      (by rw [mapGet_mapSet_ne (cstr "height") (cstr "max-height") v (by decide),
              mapGet_mapSet_ne (cstr "height") (cstr "min-height") v (by decide),
              mapGet_mapSet_self])
      hP
  · unfold expandDeclarations
    rw [hfoldh, hstep_h]
    exact mapGet_filter_of_true
      (fun w => decide (w ≠ DeclValue.one (Value.str (cstr "initial"))))
      (cstr "min-height") v _
      (by rw [mapGet_mapSet_ne (cstr "min-height") (cstr "max-height") v (by decide),
              mapGet_mapSet_self])
      hP
  · unfold expandDeclarations
    rw [hfoldh, hstep_h]
    exact mapGet_filter_of_true
      (fun w => decide (w ≠ DeclValue.one (Value.str (cstr "initial"))))
      (cstr "max-height") v _ (by rw [mapGet_mapSet_self]) hP
  · unfold expandDeclarations
    rw [hfoldw, hstep_w]
    exact mapGet_filter_of_true
      (fun w => decide (w ≠ DeclValue.one (Value.str (cstr "initial"))))
      (cstr "width") v _ (by rw [mapGet_mapSet_self]) hP
  · unfold expandDeclarations
    rw [hfoldw, hstep_w]
    exact mapGet_filter_mapSet_ne
      (fun w => decide (w ≠ DeclValue.one (Value.str (cstr "initial"))))
      (cstr "min-width") (cstr "width") v (by decide) M
  · unfold expandDeclarations
    rw [hfoldw, hstep_w]
    exact mapGet_filter_mapSet_ne
      (fun w => decide (w ≠ DeclValue.one (Value.str (cstr "initial"))))
      (cstr "max-width") (cstr "width") v (by decide) M

/-- Witness for `c9_height_width_asymmetry` at a concrete input. -/
theorem c9_height_width_asymmetry_witness :
    ((DeclValue.one (.numU (cstr "10") []) ≠ .one (.str (cstr "initial")))
      ∧ mapGet (cstr "min-height")
          (expandDeclarations ([] ++ [⟨cstr "height", DeclValue.one (.numU (cstr "10") [])⟩]))
          = some (DeclValue.one (.numU (cstr "10") []))
      ∧ mapGet (cstr "min-width")
          (expandDeclarations ([] ++ [⟨cstr "width", DeclValue.one (.numU (cstr "10") [])⟩]))
          = mapGet (cstr "min-width") (expandDeclarations [])) :=
  ⟨by decide,
   (c9_height_width_asymmetry [] (DeclValue.one (Value.numU (cstr "10") [])) (by decide)).1.2.1,
   (c9_height_width_asymmetry [] (DeclValue.one (Value.numU (cstr "10") [])) (by decide)).2.2.1⟩

/-- C10: the public facade degrades gracefully on a `None` selector chain:
`compute_style` returns the empty property map and `has_matches` returns
`False`, for any list of stylesheets. -/
theorem c10_none_selector_graceful (stylings : List (Option Styling)) :
    computeStyle none stylings = [] ∧ hasMatches none stylings = false :=
  ⟨rfl, rfl⟩

/-- C5: strip monotonicity of `trim_styling`.  Every rule of a stylesheet
that matches the selector chain exactly (`match_selector` with the empty
strip set) is kept in the stylesheet returned by `trim_styling` for that
chain: trimming is an over-approximation.  The well-formedness hypothesis
`WFRule` asks that in every style chain of the rule a `>`-typed entry is
exactly the combinator string `>` (the parser only ever emits `>` entries of
this shape). -/
theorem c5_trim_superset (chain : List Str) (st : Styling) (r : RuleSet)
    (hmem : r ∈ st.rules) (hwf : WFRule r = true)
    (hmatch : r.matchSel chain [] = true) :
    r ∈ (trimStyling chain [st]).rules := by
  have hsel : r.matchSel (stripSelectorParts chain trimStrip) trimStrip = true := by
    rw [RuleSet.matchSel, List.any_eq_true]
    rw [RuleSet.matchSel, List.any_eq_true] at hmatch
    obtain ⟨selStyle, hselmem, hm⟩ := hmatch
    refine ⟨selStyle, hselmem, ?_⟩
    refine matchSelector_strip_mono chain selStyle ?_ hm
    rw [WFRule, List.all_eq_true] at hwf
    exact hwf selStyle hselmem
  show r ∈ (trimStyling chain [st]).rules
  simp only [trimStyling, List.map_cons, List.map_nil, List.flatten_cons, List.flatten_nil,
    List.append_nil]
  rw [List.mem_filter]
  exact ⟨hmem, hsel⟩

/-- Witness for `c5_trim_superset` at a concrete input. -/
theorem c5_trim_superset_witness :
    WFRule ⟨1, [[cstr "div.x"]], []⟩ = true
    ∧ RuleSet.matchSel ⟨1, [[cstr "div.x"]], []⟩ [cstr "body", cstr "div.x:hover"] [] = true
    ∧ (⟨1, [[cstr "div.x"]], []⟩ : RuleSet) ∈ (trimStyling [cstr "body", cstr "div.x:hover"]
        [⟨[⟨1, [[cstr "div.x"]], []⟩], false⟩]).rules :=
  ⟨by decide, by decide,
    c5_trim_superset [cstr "body", cstr "div.x:hover"] ⟨[⟨1, [[cstr "div.x"]], []⟩], false⟩
      ⟨1, [[cstr "div.x"]], []⟩ (by decide) (by decide) (by decide)⟩

end UIStyle
